import Mathlib

/-!
Verification of the kelpie embedded time-series engine.

The Rust sources (`src/lib.rs`, `src/series.rs`, `src/store.rs`) are shallowly
embedded below:

* 64-bit machine integers (`i64`) are modelled as `Int` together with explicit
  range conditions; saturating addition is modelled by clamping.
* `usize` arithmetic inside the chunk decoder is modelled as `Nat` with the
  overflow cases made explicit (an overflowing addition panics in debug builds
  and leads to an out-of-bounds slice panic in release builds, so both are
  modelled as a panic).
* `f64` values are modelled by their 64-bit bit patterns as `Nat`; the engine
  never does arithmetic on values, it only stores them and tests `is_nan`.
* `BTreeMap<i64, f64>` is modelled as a strictly-sorted association list.
* Panics (`unwrap`, `assert!`, arithmetic overflow, slice out of bounds) are
  modelled by `Option`: `none` is a panic.
* The pco columnar codec and the sqlite chunk store are external collaborators
  that are not part of the repository; they are modelled from the spec (see the
  doc comments on the corresponding definitions).
-/

set_option linter.unusedVariables false

def i64max : Int := 2 ^ 63 - 1

def i64min : Int := -(2 ^ 63)

/-- Rust `i64::saturating_add`. -/
def satAdd (a b : Int) : Int := max i64min (min i64max (a + b))

/-- Rust `f64::is_nan` on the 64-bit bit pattern: exponent bits all ones and a
nonzero mantissa. -/
def isNanBits (v : Nat) : Bool := (v / 2 ^ 52) % 2 ^ 11 == 2047 && v % 2 ^ 52 != 0

/-- A finite double: a representable bit pattern whose exponent field is not
all ones (neither NaN nor an infinity). -/
def isFiniteBits (v : Nat) : Prop := v < 2 ^ 64 ∧ (v / 2 ^ 52) % 2 ^ 11 ≠ 2047

instance (v : Nat) : Decidable (isFiniteBits v) :=
  inferInstanceAs (Decidable (v < 2 ^ 64 ∧ (v / 2 ^ 52) % 2 ^ 11 ≠ 2047))

/-- `series.rs`: `pub struct DataPoint { pub time: i64, pub value: f64 }`. -/
structure DataPoint where
  time : Int
  value : Nat
deriving Repr, DecidableEq

/-- Insertion into a strictly-sorted association list, keeping it sorted and
overwriting the value at an existing key: the behaviour of
`BTreeMap::insert`. -/
def mapInsert : List (Int × Nat) → Int → Nat → List (Int × Nat)
  | [], t, v => [(t, v)]
  | (k, w) :: rest, t, v =>
    if t < k then (t, v) :: (k, w) :: rest
    else if t = k then (t, v) :: rest
    else (k, w) :: mapInsert rest t v

/-- Keys strictly increase: the canonical-form invariant of a `BTreeMap`
modelled as an association list. -/
def KeysSorted (l : List (Int × Nat)) : Prop :=
  List.Chain' (fun a b => a.1 < b.1) l

/-- Executable check for `KeysSorted`. -/
def keysSortedB : List (Int × Nat) → Bool
  | [] => true
  | [_] => true
  | a :: b :: rest => (decide (a.1 < b.1)) && keysSortedB (b :: rest)

theorem keysSortedB_iff : ∀ l, KeysSorted l ↔ keysSortedB l = true
  | [] => by simp [KeysSorted, keysSortedB]
  | [a] => by simp [KeysSorted, keysSortedB]
  | a :: b :: rest => by
    unfold KeysSorted at *
    rw [List.chain'_cons, keysSortedB, Bool.and_eq_true, decide_eq_true_eq]
    have ih := keysSortedB_iff (b :: rest)
    unfold KeysSorted at ih
    rw [ih]

instance (l : List (Int × Nat)) : Decidable (KeysSorted l) :=
  decidable_of_iff (keysSortedB l = true) (keysSortedB_iff l).symm

/-- `BTreeMap::range(start..stop)` followed by collection: the sublist of
entries whose key lies in `[start, stop)`. -/
def rangeFilter (l : List (Int × Nat)) (start stop : Int) : List (Int × Nat) :=
  l.filter (fun kv => start ≤ kv.1 && kv.1 < stop)

/-- `BTreeMap::append`: entries of the second map are inserted into the first,
the second map's value winning on a duplicate key. -/
def mapAppend (m other : List (Int × Nat)) : List (Int × Nat) :=
  other.foldl (fun acc kv => mapInsert acc kv.1 kv.2) m

def mapLookup : List (Int × Nat) → Int → Option Nat
  | [], _ => none
  | (k, v) :: rest, t => if t = k then some v else mapLookup rest t

/-- `series.rs`: `pub struct RawSeries { pub(crate) data: BTreeMap<i64, f64> }`. -/
structure RawSeries where
  data : List (Int × Nat)
deriving Repr, DecidableEq

def RawSeries.new : RawSeries := ⟨[]⟩

/-- `RawSeries::insert`. -/
def RawSeries.insert (s : RawSeries) (p : DataPoint) : RawSeries :=
  ⟨mapInsert s.data p.time p.value⟩

/-- `lib.rs`: `pub struct Schedule { chunk_start: i64, chunk_end: i64 }`. -/
structure Schedule where
  chunk_start : Int
  chunk_end : Int
deriving Repr, DecidableEq

/-- `Schedule::contains`: `(self.chunk_start..self.chunk_end).contains(&time)`. -/
def Schedule.contains (s : Schedule) (time : Int) : Bool :=
  s.chunk_start ≤ time && time < s.chunk_end

/-- `lib.rs`: `pub struct ScheduleConfig { chunk_size: i64 }`. -/
structure ScheduleConfig where
  chunk_size : Int
deriving Repr, DecidableEq

/-- `ScheduleConfig::default()`: one hour in milliseconds. -/
def ScheduleConfig.default : ScheduleConfig := ⟨60 * 60 * 1000⟩

/-- `ScheduleConfig::init_schedule_from_time`: round the time down to a
multiple of the chunk size (Rust `/` on `i64` truncates toward zero) and add
the chunk size, saturating. -/
def ScheduleConfig.init_schedule_from_time (cfg : ScheduleConfig) (point : Int) :
    Schedule :=
  let chunk_start := Int.tdiv point cfg.chunk_size * cfg.chunk_size
  let chunk_end := satAdd chunk_start cfg.chunk_size
  ⟨chunk_start, chunk_end⟩

/-!  ### Arithmetic facts about the schedule computation  -/

theorem tdiv_mul_le_self (t c : Int) (ht : 0 ≤ t) (hc : 0 < c) :
    Int.tdiv t c * c ≤ t := by
  rw [Int.tdiv_eq_ediv ht (by omega)]
  exact Int.ediv_mul_le t (by omega)

theorem lt_tdiv_mul_add (t c : Int) (ht : 0 ≤ t) (hc : 0 < c) :
    t < Int.tdiv t c * c + c := by
  rw [Int.tdiv_eq_ediv ht (by omega)]
  have := Int.lt_ediv_add_one_mul_self t hc
  nlinarith [this]

theorem le_tdiv_mul_of_nonpos (t c : Int) (ht : t ≤ 0) (hc : 0 < c) :
    t ≤ Int.tdiv t c * c := by
  have h1 : Int.tdiv (-t) c * c ≤ -t := tdiv_mul_le_self (-t) c (by omega) hc
  rw [Int.neg_tdiv, neg_mul] at h1
  omega

theorem tdiv_mul_nonpos_of_nonpos (t c : Int) (ht : t ≤ 0) (hc : 0 < c) :
    Int.tdiv t c * c ≤ 0 := by
  have h3 : 0 ≤ Int.tdiv (-t) c := Int.tdiv_nonneg (by omega) (by omega)
  rw [Int.neg_tdiv] at h3
  nlinarith

/-- The window of a valid time contains that time. -/
theorem schedule_contains_self (cfg : ScheduleConfig) (t : Int)
    (hc : 0 < cfg.chunk_size) (ht0 : 0 ≤ t) (htM : t < i64max) :
    (cfg.init_schedule_from_time t).contains t = true := by
  unfold ScheduleConfig.init_schedule_from_time Schedule.contains satAdd
  have h1 : Int.tdiv t cfg.chunk_size * cfg.chunk_size ≤ t :=
    tdiv_mul_le_self t cfg.chunk_size ht0 hc
  have h2 : t < Int.tdiv t cfg.chunk_size * cfg.chunk_size + cfg.chunk_size :=
    lt_tdiv_mul_add t cfg.chunk_size ht0 hc
  simp only [Bool.and_eq_true, decide_eq_true_eq]
  refine ⟨h1, ?_⟩
  unfold i64max i64min at *
  omega

/-- C10 core fact: the window end strictly exceeds any i64 time below
`i64::MAX`, so the query loop's cursor strictly increases. -/
theorem schedule_end_progress (cfg : ScheduleConfig) (t : Int)
    (hc : 0 < cfg.chunk_size) (hcM : cfg.chunk_size ≤ i64max)
    (htm : i64min ≤ t) (htM : t < i64max) :
    t < (cfg.init_schedule_from_time t).chunk_end := by
  unfold ScheduleConfig.init_schedule_from_time satAdd
  by_cases ht : 0 ≤ t
  · have h2 : t < Int.tdiv t cfg.chunk_size * cfg.chunk_size + cfg.chunk_size :=
      lt_tdiv_mul_add t cfg.chunk_size ht hc
    simp only
    unfold i64max i64min at *
    omega
  · have h1 : t ≤ Int.tdiv t cfg.chunk_size * cfg.chunk_size :=
      le_tdiv_mul_of_nonpos t cfg.chunk_size (by omega) hc
    have h3 : Int.tdiv t cfg.chunk_size * cfg.chunk_size ≤ 0 :=
      tdiv_mul_nonpos_of_nonpos t cfg.chunk_size (by omega) hc
    simp only
    unfold i64max i64min at *
    omega

/-- C5 (claim theorem, below) helper: chunk starts are aligned. -/
theorem schedule_start_aligned (cfg : ScheduleConfig) (t : Int) :
    (cfg.init_schedule_from_time t).chunk_start % cfg.chunk_size = 0 := by
  unfold ScheduleConfig.init_schedule_from_time
  exact Int.mul_emod_left _ _

/-!  ### Chunk codec (`src/series.rs`)

The interior column codec is the external `pco` crate, which is not part of
this repository; per the spec it is a lossless codec for `i64` / `f64`
columns.  It is modelled here by a fixed-width little-endian byte codec, which
is lossless for 64-bit columns exactly as the spec requires, and whose decoder
can reject malformed payloads (as `pco`'s can).  -/

/-- The eight little-endian bytes of `n % 2^64`: Rust `u64::to_le_bytes` /
`usize::to_le_bytes`. -/
def le8 (n : Nat) : List Nat :=
  [n % 256, n / 256 % 256, n / 256 ^ 2 % 256, n / 256 ^ 3 % 256,
   n / 256 ^ 4 % 256, n / 256 ^ 5 % 256, n / 256 ^ 6 % 256, n / 256 ^ 7 % 256]

/-- Little-endian byte-list to natural number (`u64::from_le_bytes` when the
list has eight bytes). -/
def leToNat : List Nat → Nat
  | [] => 0
  | b :: rest => b + 256 * leToNat rest

/-- The two's-complement 64-bit pattern of an `i64`. -/
def toU64 (t : Int) : Nat := (t % 2 ^ 64).toNat

/-- Read an `i64` back from its two's-complement 64-bit pattern. -/
def fromU64 (n : Nat) : Int := if n < 2 ^ 63 then (n : Int) else (n : Int) - 2 ^ 64

/-- Group a byte list into 64-bit little-endian words; fails when the length
is not a multiple of eight. -/
def bytesToU64s : List Nat → Option (List Nat)
  | [] => some []
  | b0 :: b1 :: b2 :: b3 :: b4 :: b5 :: b6 :: b7 :: rest =>
    (bytesToU64s rest).map (fun ns => leToNat [b0, b1, b2, b3, b4, b5, b6, b7] :: ns)
  | _ => none

/-- Modelled from the spec: `pco::standalone::simpler_compress` on an `i64`
column — a lossless encoding of the column (here: fixed-width little-endian
two's complement). -/
def simple_compress_i64 (l : List Int) : List Nat :=
  l.flatMap (fun t => le8 (toU64 t))

/-- Modelled from the spec: `pco::standalone::simple_decompress::<i64>` — the
inverse of the column encoding; fails on malformed payloads. -/
def simple_decompress_i64 (b : List Nat) : Option (List Int) :=
  (bytesToU64s b).map (List.map fromU64)

/-- Modelled from the spec: `pco::standalone::simpler_compress` on an `f64`
column (values are 64-bit patterns). -/
def simple_compress_f64 (l : List Nat) : List Nat :=
  l.flatMap (fun v => le8 v)

/-- Modelled from the spec: `pco::standalone::simple_decompress::<f64>`. -/
def simple_decompress_f64 (b : List Nat) : Option (List Nat) :=
  bytesToU64s b

/-- `series.rs`: `pub enum DecompressError`.  The payload-carrying variant
`DecompressError::DecompressError(Box<dyn Error>)` is the one the spec calls
`CodecError`. -/
inductive DecompressError
  | TimeHeaderMissing
  | TimesMissing
  | ValHeaderMissing
  | ValsMissing
  | CodecError
deriving Repr, DecidableEq

/-- The zip-and-insert loop at the end of `raw_decompress`: pairs the two
columns up to the shorter length and inserts each pair. -/
def zipInsert (times : List Int) (values : List Nat) : RawSeries :=
  (times.zip values).foldl (fun s tv => s.insert ⟨tv.1, tv.2⟩) RawSeries.new

/-- `series.rs::raw_decompress`.  `none` models a panic: the `usize` overflow
of `times_len + 8` / `times_end + vals_len + 8` (debug overflow panic, or the
subsequent out-of-range slice in release mode), and the `.unwrap()` on the
interior codec results. -/
def raw_decompress (bytes : List Nat) : Option (Except DecompressError RawSeries) :=
  if bytes.length < 8 then some (.error .TimeHeaderMissing) else
  let times_len := leToNat (bytes.take 8)
  if 2 ^ 64 ≤ times_len + 8 then none else
  let times_end := times_len + 8
  if bytes.length < times_end then some (.error .TimesMissing) else
  let compressed_times := (bytes.drop 8).take times_len
  if bytes.length - times_end < 8 then some (.error .ValHeaderMissing) else
  let vals_len := leToNat ((bytes.drop times_end).take 8)
  if 2 ^ 64 ≤ times_end + vals_len + 8 then none else
  let vals_end := times_end + vals_len + 8
  if bytes.length < vals_end then some (.error .ValsMissing) else
  let compressed_vals := (bytes.drop (times_end + 8)).take vals_len
  match simple_decompress_i64 compressed_times with
  | none => none
  | some times =>
    match simple_decompress_f64 compressed_vals with
    | none => none
    | some values => some (.ok (zipInsert times values))

/-- `series.rs::raw_compress`: the framed concatenation of the two length-
prefixed compressed columns. -/
def raw_compress (raw : RawSeries) : List Nat :=
  let compressed_times := simple_compress_i64 (raw.data.map Prod.fst)
  let compressed_vals := simple_compress_f64 (raw.data.map Prod.snd)
  le8 compressed_times.length ++ compressed_times ++
    le8 compressed_vals.length ++ compressed_vals

/-- `series.rs`: `pub struct Chunk`. -/
structure Chunk where
  compressed_data : List Nat
deriving Repr, DecidableEq

def Chunk.decompress (c : Chunk) : Option (Except DecompressError RawSeries) :=
  raw_decompress c.compressed_data

def Chunk.compress_series (series : RawSeries) : Chunk :=
  ⟨raw_compress series⟩

/-!  ### Codec round-trip lemmas  -/

theorem leToNat_le8 (n : Nat) : leToNat (le8 n) = n % 2 ^ 64 := by
  simp only [le8, leToNat]
  omega

theorem le8_length (n : Nat) : (le8 n).length = 8 := by
  simp [le8]

theorem toU64_lt (t : Int) : toU64 t < 2 ^ 64 := by
  unfold toU64
  have h : t % 2 ^ 64 < 2 ^ 64 := Int.emod_lt_of_pos t (by norm_num)
  omega

theorem fromU64_toU64 (t : Int) (h1 : i64min ≤ t) (h2 : t ≤ i64max) :
    fromU64 (toU64 t) = t := by
  unfold fromU64 toU64 i64min i64max at *
  have h3 : 0 ≤ t % 2 ^ 64 := Int.emod_nonneg t (by norm_num)
  have h4 : t % 2 ^ 64 < 2 ^ 64 := Int.emod_lt_of_pos t (by norm_num)
  have h5 : (2 : Int) ^ 64 ∣ (t - t % 2 ^ 64) := Int.dvd_sub_of_emod_eq rfl
  rcases h5 with ⟨k, hk⟩
  split <;> omega

theorem bytesToU64s_le8_append (n : Nat) (rest : List Nat) :
    bytesToU64s (le8 n ++ rest) =
      (bytesToU64s rest).map (fun ns => n % 2 ^ 64 :: ns) := by
  have h : leToNat [n % 256, n / 256 % 256, n / 256 ^ 2 % 256, n / 256 ^ 3 % 256,
      n / 256 ^ 4 % 256, n / 256 ^ 5 % 256, n / 256 ^ 6 % 256, n / 256 ^ 7 % 256]
      = n % 2 ^ 64 := leToNat_le8 n
  simp only [le8, List.cons_append, List.nil_append, bytesToU64s]
  rw [h]
  rfl

theorem decompress_compress_i64 (l : List Int)
    (h : ∀ t ∈ l, i64min ≤ t ∧ t ≤ i64max) :
    simple_decompress_i64 (simple_compress_i64 l) = some l := by
  induction l with
  | nil => rfl
  | cons t ts ih =>
    have hts : simple_decompress_i64 (simple_compress_i64 ts) = some ts :=
      ih (fun x hx => h x (List.mem_cons_of_mem t hx))
    unfold simple_decompress_i64 at hts ⊢
    unfold simple_compress_i64 at hts ⊢
    rw [List.flatMap_cons, bytesToU64s_le8_append]
    rcases hw : bytesToU64s (ts.flatMap fun t => le8 (toU64 t)) with _ | ws
    · rw [hw] at hts
      simp only [Option.map_none'] at hts
      exact Option.noConfusion hts
    · rw [hw] at hts
      simp only [Option.map_some'] at hts ⊢
      have hmod : toU64 t % 2 ^ 64 = toU64 t := Nat.mod_eq_of_lt (toU64_lt t)
      rw [hmod]
      simp only [List.map_cons]
      have ht := h t (List.mem_cons_self t ts)
      rw [fromU64_toU64 t ht.1 ht.2]
      simp only [Option.some.injEq] at hts
      rw [hts]

theorem decompress_compress_f64 (l : List Nat)
    (h : ∀ v ∈ l, v < 2 ^ 64) :
    simple_decompress_f64 (simple_compress_f64 l) = some l := by
  induction l with
  | nil => rfl
  | cons v vs ih =>
    have hvs : simple_decompress_f64 (simple_compress_f64 vs) = some vs :=
      ih (fun x hx => h x (List.mem_cons_of_mem v hx))
    unfold simple_decompress_f64 at hvs ⊢
    unfold simple_compress_f64 at hvs ⊢
    rw [List.flatMap_cons, bytesToU64s_le8_append, hvs]
    have hmod : v % 2 ^ 64 = v := Nat.mod_eq_of_lt (h v (List.mem_cons_self v vs))
    rw [Option.map_some', hmod]

theorem compress_i64_length (l : List Int) :
    (simple_compress_i64 l).length = 8 * l.length := by
  induction l with
  | nil => rfl
  | cons t ts ih =>
    unfold simple_compress_i64 at ih ⊢
    rw [List.flatMap_cons, List.length_append, le8_length, ih, List.length_cons]
    ring

theorem compress_f64_length (l : List Nat) :
    (simple_compress_f64 l).length = 8 * l.length := by
  induction l with
  | nil => rfl
  | cons v vs ih =>
    unfold simple_compress_f64 at ih ⊢
    rw [List.flatMap_cons, List.length_append, le8_length, ih, List.length_cons]
    ring

instance : IsTrans (Int × Nat) (fun a b => a.1 < b.1) :=
  ⟨fun _ _ _ h1 h2 => lt_trans h1 h2⟩

theorem zip_map_fst_snd_self (d : List (Int × Nat)) :
    (d.map Prod.fst).zip (d.map Prod.snd) = d := by
  induction d with
  | nil => rfl
  | cons kv rest ih => simp [ih]

theorem mapInsert_all_lt (m : List (Int × Nat)) (t : Int) (v : Nat)
    (h : ∀ kv ∈ m, kv.1 < t) : mapInsert m t v = m ++ [(t, v)] := by
  induction m with
  | nil => rfl
  | cons kw rest ih =>
    have hk : kw.1 < t := h kw (List.mem_cons_self kw rest)
    unfold mapInsert
    rw [if_neg (by omega), if_neg (by omega)]
    rw [ih (fun kv hkv => h kv (List.mem_cons_of_mem kw hkv))]
    rfl

theorem foldl_insert_eq_append : ∀ (l m : List (Int × Nat)),
    (∀ a ∈ m, ∀ b ∈ l, a.1 < b.1) →
    List.Pairwise (fun a b : Int × Nat => a.1 < b.1) l →
    List.foldl (fun s tv => RawSeries.insert s ⟨tv.1, tv.2⟩)
      (⟨m⟩ : RawSeries) l = ⟨m ++ l⟩ := by
  intro l
  induction l with
  | nil => intro m _ _; simp
  | cons tv rest ih =>
    intro m hml hp
    rw [List.foldl_cons]
    have h1 : RawSeries.insert (⟨m⟩ : RawSeries) ⟨tv.1, tv.2⟩ = ⟨m ++ [tv]⟩ := by
      unfold RawSeries.insert
      simp only
      rw [mapInsert_all_lt m tv.1 tv.2
        (fun kv hkv => hml kv hkv tv (List.mem_cons_self tv rest))]
    rw [h1, ih (m ++ [tv]) ?_ (List.Pairwise.of_cons hp)]
    · simp
    · intro a ha b hb
      rcases List.mem_append.mp ha with ha' | ha'
      · exact hml a ha' b (List.mem_cons_of_mem tv hb)
      · have : a = tv := by simpa using ha'
        subst this
        exact (List.pairwise_cons.mp hp).1 b hb

theorem zipInsert_sorted (d : List (Int × Nat)) (hd : KeysSorted d) :
    zipInsert (d.map Prod.fst) (d.map Prod.snd) = ⟨d⟩ := by
  unfold zipInsert RawSeries.new
  rw [zip_map_fst_snd_self]
  have hp : List.Pairwise (fun a b : Int × Nat => a.1 < b.1) d :=
    List.chain'_iff_pairwise.mp hd
  rw [foldl_insert_eq_append d [] (by intro a ha; simp at ha) hp]
  simp

/-- Round-trip of the chunk framing: decompressing a compressed series
recovers it exactly, provided the series is canonical (sorted), its times are
i64 values, its value patterns are 64-bit, and the frame fits in a `usize`
(true of every buffer Rust can allocate). -/
theorem raw_roundtrip (s : RawSeries) (hs : KeysSorted s.data)
    (htimes : ∀ kv ∈ s.data, i64min ≤ kv.1 ∧ kv.1 ≤ i64max)
    (hvals : ∀ kv ∈ s.data, kv.2 < 2 ^ 64)
    (hsize : 16 * s.data.length + 16 < 2 ^ 64) :
    raw_decompress (raw_compress s) = some (Except.ok s) := by
  have hdect : simple_decompress_i64 (simple_compress_i64 (s.data.map Prod.fst))
      = some (s.data.map Prod.fst) := by
    apply decompress_compress_i64
    intro t ht
    rcases List.mem_map.mp ht with ⟨kv, hkv, rfl⟩
    exact htimes kv hkv
  have hdecv : simple_decompress_f64 (simple_compress_f64 (s.data.map Prod.snd))
      = some (s.data.map Prod.snd) := by
    apply decompress_compress_f64
    intro v hv
    rcases List.mem_map.mp hv with ⟨kv, hkv, rfl⟩
    exact hvals kv hkv
  have hctl : (simple_compress_i64 (s.data.map Prod.fst)).length = 8 * s.data.length := by
    rw [compress_i64_length, List.length_map]
  have hcvl : (simple_compress_f64 (s.data.map Prod.snd)).length = 8 * s.data.length := by
    rw [compress_f64_length, List.length_map]
  set ct := simple_compress_i64 (s.data.map Prod.fst) with hct
  set cv := simple_compress_f64 (s.data.map Prod.snd) with hcv
  have hcompress : raw_compress s = le8 ct.length ++ ct ++ le8 cv.length ++ cv := rfl
  have h : 16 + ct.length + cv.length < 2 ^ 64 := by omega
  have htake8 : (le8 ct.length ++ ct ++ le8 cv.length ++ cv).take 8 = le8 ct.length := by
    rw [List.append_assoc, List.append_assoc]
    exact List.take_left' (le8_length _)
  have hdrop8 : (le8 ct.length ++ ct ++ le8 cv.length ++ cv).drop 8
      = ct ++ (le8 cv.length ++ cv) := by
    rw [List.append_assoc, List.append_assoc]
    exact List.drop_left' (le8_length _)
  have hct2 : (ct ++ (le8 cv.length ++ cv)).take ct.length = ct := List.take_left' rfl
  have hdropte : (le8 ct.length ++ ct ++ le8 cv.length ++ cv).drop (ct.length + 8)
      = le8 cv.length ++ cv := by
    rw [List.append_assoc]
    apply List.drop_left'
    rw [List.length_append, le8_length]
    omega
  have htakev : (le8 cv.length ++ cv).take 8 = le8 cv.length := List.take_left' (le8_length _)
  have hdropv : (le8 ct.length ++ ct ++ le8 cv.length ++ cv).drop (ct.length + 8 + 8)
      = cv := by
    apply List.drop_left'
    rw [List.length_append, List.length_append, le8_length, le8_length]
    omega
  have hlen : (le8 ct.length ++ ct ++ le8 cv.length ++ cv).length
      = 16 + ct.length + cv.length := by
    simp only [List.length_append, le8_length]
    omega
  rw [hcompress]
  unfold raw_decompress
  rw [hlen, htake8, leToNat_le8, Nat.mod_eq_of_lt (show ct.length < 2 ^ 64 by omega)]
  rw [if_neg (show ¬(16 + ct.length + cv.length < 8) by omega)]
  rw [if_neg (show ¬(2 ^ 64 ≤ ct.length + 8) by omega)]
  rw [if_neg (show ¬(16 + ct.length + cv.length < ct.length + 8) by omega)]
  rw [if_neg (show ¬(16 + ct.length + cv.length - (ct.length + 8) < 8) by omega)]
  rw [hdrop8, hct2, hdropte, htakev, leToNat_le8,
    Nat.mod_eq_of_lt (show cv.length < 2 ^ 64 by omega)]
  rw [if_neg (show ¬(2 ^ 64 ≤ ct.length + 8 + cv.length + 8) by omega)]
  rw [if_neg (show ¬(16 + ct.length + cv.length < ct.length + 8 + cv.length + 8) by omega)]
  rw [hdropv, List.take_length]
  rw [hdect]
  have hz : zipInsert (s.data.map Prod.fst) (s.data.map Prod.snd) = s :=
    zipInsert_sorted s.data hs
  simp only [hdecv, hz]

theorem mapInsert_length_le (m : List (Int × Nat)) (t : Int) (v : Nat) :
    (mapInsert m t v).length ≤ m.length + 1 := by
  induction m with
  | nil => simp [mapInsert]
  | cons kw rest ih =>
    unfold mapInsert
    split
    · simp
    · split
      · simp
      · simpa using Nat.succ_le_succ ih

theorem zipInsert_length_le (ts : List Int) (vs : List Nat) :
    (zipInsert ts vs).data.length ≤ min ts.length vs.length := by
  have haux : ∀ (l : List (Int × Nat)) (m : List (Int × Nat)),
      (List.foldl (fun s tv => RawSeries.insert s ⟨tv.1, tv.2⟩)
        (⟨m⟩ : RawSeries) l).data.length ≤ m.length + l.length := by
    intro l
    induction l with
    | nil => intro m; simp
    | cons tv rest ih =>
      intro m
      rw [List.foldl_cons]
      have h1 := ih (mapInsert m tv.1 tv.2)
      have h2 := mapInsert_length_le m tv.1 tv.2
      calc (List.foldl (fun s tv => RawSeries.insert s ⟨tv.1, tv.2⟩)
            (RawSeries.insert ⟨m⟩ ⟨tv.1, tv.2⟩) rest).data.length
          ≤ (mapInsert m tv.1 tv.2).length + rest.length := h1
        _ ≤ m.length + 1 + rest.length := by omega
        _ = m.length + (tv :: rest).length := by simp; omega
  have h := haux (ts.zip vs) []
  simp only [List.length_nil, Nat.zero_add] at h
  unfold zipInsert RawSeries.new
  have hz : (ts.zip vs).length = min ts.length vs.length := List.length_zip ts vs
  omega

/-- C2: for every `RawSeries` whose values are all finite (non-NaN,
non-infinite) and whose times lie in `[0, i64::MAX)`,
`decompress(compress(s)) == s`, with bitwise `f64` value equality (values are
bit patterns here, so equality of the results is bitwise).  The extra
hypotheses say that `s` is a canonically sorted map (what a `BTreeMap` always
is) and small enough for its frame to be allocatable in a `usize` world (a
`Vec` longer than `isize::MAX` bytes cannot exist in Rust). -/
theorem claim_C2_compress_roundtrip (s : RawSeries)
    (hs : KeysSorted s.data)
    (htimes : ∀ kv ∈ s.data, 0 ≤ kv.1 ∧ kv.1 < i64max)
    (hvals : ∀ kv ∈ s.data, isFiniteBits kv.2)
    (hsize : 16 * s.data.length + 16 < 2 ^ 64) :
    raw_decompress (raw_compress s) = some (Except.ok s) := by
  apply raw_roundtrip s hs
  · intro kv hkv
    have := htimes kv hkv
    unfold i64min i64max at *
    omega
  · intro kv hkv
    exact (hvals kv hkv).1
  · exact hsize

theorem claim_C2_compress_roundtrip_witness :
    KeysSorted [((0 : Int), (1 : Nat)), (5, 2)] ∧
    raw_decompress (raw_compress ⟨[((0 : Int), (1 : Nat)), (5, 2)]⟩)
      = some (Except.ok ⟨[((0 : Int), (1 : Nat)), (5, 2)]⟩) :=
  ⟨by decide,
   claim_C2_compress_roundtrip ⟨[((0 : Int), (1 : Nat)), (5, 2)]⟩
     (by decide) (by decide) (by decide) (by decide)⟩

theorem raw_decompress_ne_codecerror (b : List Nat) :
    raw_decompress b ≠ some (.error DecompressError.CodecError) := by
  unfold raw_decompress
  by_cases h1 : b.length < 8
  · rw [if_pos h1]; simp
  rw [if_neg h1]
  by_cases h2 : 2 ^ 64 ≤ leToNat (b.take 8) + 8
  · rw [if_pos h2]; simp
  rw [if_neg h2]
  by_cases h3 : b.length < leToNat (b.take 8) + 8
  · rw [if_pos h3]; simp
  rw [if_neg h3]
  by_cases h4 : b.length - (leToNat (b.take 8) + 8) < 8
  · rw [if_pos h4]; simp
  rw [if_neg h4]
  by_cases h5 : 2 ^ 64 ≤ leToNat (b.take 8) + 8
      + leToNat ((b.drop (leToNat (b.take 8) + 8)).take 8) + 8
  · rw [if_pos h5]; simp
  rw [if_neg h5]
  by_cases h6 : b.length < leToNat (b.take 8) + 8
      + leToNat ((b.drop (leToNat (b.take 8) + 8)).take 8) + 8
  · rw [if_pos h6]; simp
  rw [if_neg h6]
  rcases hts : simple_decompress_i64 ((b.drop 8).take (leToNat (b.take 8))) with _ | ts
  · simp only [hts]
    simp
  rcases hvs : simple_decompress_f64 ((b.drop (leToNat (b.take 8) + 8 + 8)).take
      (leToNat ((b.drop (leToNat (b.take 8) + 8)).take 8))) with _ | vs
  · simp only [hts, hvs]
    simp
  · simp only [hts, hvs]
    simp

/-- C9 counterexample: on the 8-byte input `[255; 8]` the time column length
prefix is `2^64 - 1`, which exceeds the remaining bytes, so the claim predicts
`TimesMissing`; the code instead panics (`times_len + 8` overflows `usize` in
debug mode, and the subsequent slice `bytes[8..7]` is out of bounds in release
mode), modelled by `none`. -/
theorem claim_C9_counterexample :
    raw_decompress [255, 255, 255, 255, 255, 255, 255, 255] = none ∧
    some (Except.error DecompressError.TimesMissing)
      ≠ (none : Option (Except DecompressError RawSeries)) := by
  constructor
  · rfl
  · simp

/-- C9 (amended): for every byte sequence, `decompress` returns
`TimeHeaderMissing` when shorter than 8 bytes; panics when the time length
prefix makes `times_len + 8` overflow `usize`; returns `TimesMissing` when the
time column exceeds the remaining bytes; returns `ValHeaderMissing` when fewer
than 8 bytes remain after the time column; panics when
`times_end + vals_len + 8` overflows `usize`; returns `ValsMissing` when the
value column exceeds the remaining bytes; panics (via `unwrap`) when an
interior codec payload is malformed — it never returns `CodecError`; and
otherwise succeeds, zipping the two decoded columns pairwise up to
`min(len(times), len(values))` with excess entries silently dropped. -/
theorem claim_C9_decompress_errors (b : List Nat) (hb : ∀ x ∈ b, x < 256) :
    (b.length < 8 → raw_decompress b = some (.error .TimeHeaderMissing)) ∧
    (8 ≤ b.length → 2 ^ 64 ≤ leToNat (b.take 8) + 8 → raw_decompress b = none) ∧
    (8 ≤ b.length → leToNat (b.take 8) + 8 < 2 ^ 64 →
      b.length < leToNat (b.take 8) + 8 →
      raw_decompress b = some (.error .TimesMissing)) ∧
    (8 ≤ b.length → leToNat (b.take 8) + 8 < 2 ^ 64 →
      leToNat (b.take 8) + 8 ≤ b.length →
      b.length - (leToNat (b.take 8) + 8) < 8 →
      raw_decompress b = some (.error .ValHeaderMissing)) ∧
    (8 ≤ b.length → leToNat (b.take 8) + 8 < 2 ^ 64 →
      leToNat (b.take 8) + 8 ≤ b.length →
      8 ≤ b.length - (leToNat (b.take 8) + 8) →
      2 ^ 64 ≤ leToNat (b.take 8) + 8
        + leToNat ((b.drop (leToNat (b.take 8) + 8)).take 8) + 8 →
      raw_decompress b = none) ∧
    (8 ≤ b.length → leToNat (b.take 8) + 8 < 2 ^ 64 →
      leToNat (b.take 8) + 8 ≤ b.length →
      8 ≤ b.length - (leToNat (b.take 8) + 8) →
      leToNat (b.take 8) + 8
        + leToNat ((b.drop (leToNat (b.take 8) + 8)).take 8) + 8 < 2 ^ 64 →
      b.length < leToNat (b.take 8) + 8
        + leToNat ((b.drop (leToNat (b.take 8) + 8)).take 8) + 8 →
      raw_decompress b = some (.error .ValsMissing)) ∧
    (8 ≤ b.length → leToNat (b.take 8) + 8 < 2 ^ 64 →
      leToNat (b.take 8) + 8 ≤ b.length →
      8 ≤ b.length - (leToNat (b.take 8) + 8) →
      leToNat (b.take 8) + 8
        + leToNat ((b.drop (leToNat (b.take 8) + 8)).take 8) + 8 < 2 ^ 64 →
      leToNat (b.take 8) + 8
        + leToNat ((b.drop (leToNat (b.take 8) + 8)).take 8) + 8 ≤ b.length →
      (simple_decompress_i64 ((b.drop 8).take (leToNat (b.take 8))) = none →
        raw_decompress b = none) ∧
      (∀ ts, simple_decompress_i64 ((b.drop 8).take (leToNat (b.take 8))) = some ts →
        simple_decompress_f64 ((b.drop (leToNat (b.take 8) + 8 + 8)).take
          (leToNat ((b.drop (leToNat (b.take 8) + 8)).take 8))) = none →
        raw_decompress b = none) ∧
      (∀ ts vs, simple_decompress_i64 ((b.drop 8).take (leToNat (b.take 8))) = some ts →
        simple_decompress_f64 ((b.drop (leToNat (b.take 8) + 8 + 8)).take
          (leToNat ((b.drop (leToNat (b.take 8) + 8)).take 8))) = some vs →
        raw_decompress b = some (.ok (zipInsert ts vs)) ∧
        (zipInsert ts vs).data.length ≤ min ts.length vs.length)) ∧
    (raw_decompress b ≠ some (.error DecompressError.CodecError)) := by
  refine ⟨?_, ?_, ?_, ?_, ?_, ?_, ?_, ?_⟩
  · intro h1
    unfold raw_decompress
    rw [if_pos h1]
  · intro h1 h2
    unfold raw_decompress
    rw [if_neg (by omega), if_pos h2]
  · intro h1 h2 h3
    unfold raw_decompress
    rw [if_neg (by omega), if_neg (by omega), if_pos h3]
  · intro h1 h2 h3 h4
    unfold raw_decompress
    rw [if_neg (by omega), if_neg (by omega), if_neg (by omega), if_pos h4]
  · intro h1 h2 h3 h4 h5
    unfold raw_decompress
    rw [if_neg (by omega), if_neg (by omega), if_neg (by omega), if_neg (by omega),
      if_pos h5]
  · intro h1 h2 h3 h4 h5 h6
    unfold raw_decompress
    rw [if_neg (by omega), if_neg (by omega), if_neg (by omega), if_neg (by omega),
      if_neg (by omega), if_pos h6]
  · intro h1 h2 h3 h4 h5 h6
    refine ⟨?_, ?_, ?_⟩
    · intro hdec
      unfold raw_decompress
      rw [if_neg (by omega), if_neg (by omega), if_neg (by omega), if_neg (by omega),
        if_neg (by omega), if_neg (by omega), hdec]
    · intro ts hts hvs
      unfold raw_decompress
      rw [if_neg (by omega), if_neg (by omega), if_neg (by omega), if_neg (by omega),
        if_neg (by omega), if_neg (by omega), hts]
      simp only [hvs]
    · intro ts vs hts hvs
      constructor
      · unfold raw_decompress
        rw [if_neg (by omega), if_neg (by omega), if_neg (by omega), if_neg (by omega),
          if_neg (by omega), if_neg (by omega), hts]
        simp only [hvs]
      · exact zipInsert_length_le ts vs
  · exact raw_decompress_ne_codecerror b

theorem claim_C9_decompress_errors_witness :
    (∀ x ∈ [(0 : Nat)], x < 256) ∧
    ([(0 : Nat)].length < 8 →
      raw_decompress [0] = some (.error .TimeHeaderMissing)) :=
  ⟨by decide, (claim_C9_decompress_errors [0] (by decide)).1⟩

/-- C5: for every `chunk_size > 0` and every time `t`, `init_schedule(t)`
yields `chunk_start = (t / chunk_size) * chunk_size` under truncated division
and `chunk_end = chunk_start` saturating-plus `chunk_size`; `chunk_start` is a
multiple of `chunk_size`; and for `0 ≤ t < i64::MAX` the schedule contains
`t`: `chunk_start ≤ t < chunk_end`. -/
theorem claim_C5_init_schedule (cfg : ScheduleConfig) (t : Int)
    (hc : 0 < cfg.chunk_size) :
    (cfg.init_schedule_from_time t).chunk_start
        = Int.tdiv t cfg.chunk_size * cfg.chunk_size ∧
    (cfg.init_schedule_from_time t).chunk_end
        = satAdd (cfg.init_schedule_from_time t).chunk_start cfg.chunk_size ∧
    (cfg.init_schedule_from_time t).chunk_start % cfg.chunk_size = 0 ∧
    (0 ≤ t → t < i64max →
      (cfg.init_schedule_from_time t).chunk_start ≤ t ∧
      t < (cfg.init_schedule_from_time t).chunk_end) := by
  refine ⟨rfl, rfl, schedule_start_aligned cfg t, fun ht0 htM => ⟨?_, ?_⟩⟩
  · exact tdiv_mul_le_self t cfg.chunk_size ht0 hc
  · have h := schedule_contains_self cfg t hc ht0 htM
    unfold Schedule.contains at h
    simp only [Bool.and_eq_true, decide_eq_true_eq] at h
    exact h.2

theorem claim_C5_init_schedule_witness :
    (0 : Int) < 10 ∧
    ((⟨10⟩ : ScheduleConfig).init_schedule_from_time 25).chunk_start
      = Int.tdiv 25 10 * 10 :=
  ⟨by decide, (claim_C5_init_schedule ⟨10⟩ 25 (by decide)).1⟩

/-!  ### Chunk store (`src/store.rs`)  -/

/-- `store.rs`: `pub struct ChunkMeta`. -/
structure ChunkMeta where
  series_key : Int
  start : Int
  stop : Int
deriving Repr, DecidableEq

/-- `store.rs`: `GetChunkError::Driver` (the boxed driver error is dropped). -/
inductive GetChunkError
  | Driver
deriving Repr, DecidableEq

/-- `store.rs`: `SetChunkError::Driver`. -/
inductive SetChunkError
  | Driver
deriving Repr, DecidableEq

/-- `store.rs`: `trait KelpieChunkStore`, abstracted over the store state `σ`
so that both the (spec-modelled) sqlite store and an always-failing driver can
instantiate it. -/
structure KelpieChunkStore (σ : Type) where
  get_chunk : σ → Int → Int → Int → Except GetChunkError (Option (ChunkMeta × Chunk))
  set_chunk : σ → Int → Int → Int → Chunk → Except SetChunkError σ

/-- One row of the sqlite `chunks` table, in insertion order. -/
structure StoreRow where
  series : Int
  start : Int
  stop : Int
  chunk : Chunk
deriving Repr, DecidableEq

/-- Modelled from the spec: `SqliteChunkStore::get_chunk` runs
`SELECT start, stop, chunk FROM chunks WHERE series == ? AND start <= ? AND
stop >= ? ORDER BY start DESC LIMIT 1`: among matching rows the greatest
`start` wins, the most recently inserted row winning ties (the spec reads the
result as "the most recent (highest start) row"). -/
def sqlite_get_chunk (rows : List StoreRow) (series_key start stop : Int) :
    Option (ChunkMeta × Chunk) :=
  (rows.foldl (fun best r =>
    if r.series = series_key ∧ r.start ≤ start ∧ stop ≤ r.stop then
      match best with
      | none => some r
      | some b => if b.start ≤ r.start then some r else some b
    else best) none).map (fun r => (⟨series_key, r.start, r.stop⟩, r.chunk))

/-- Modelled from the spec: `SqliteChunkStore::set_chunk` appends a row
(`INSERT INTO chunks VALUES (?, ?, ?, ?)`). -/
def sqlite_set_chunk (rows : List StoreRow) (series_key start stop : Int)
    (chunk : Chunk) : List StoreRow :=
  rows ++ [⟨series_key, start, stop, chunk⟩]

/-- The in-memory sqlite store: its driver never fails. -/
def sqliteStore : KelpieChunkStore (List StoreRow) where
  get_chunk rows k s e := .ok (sqlite_get_chunk rows k s e)
  set_chunk rows k s e c := .ok (sqlite_set_chunk rows k s e c)

/-- A store whose driver always fails, to observe error propagation. -/
def failStore : KelpieChunkStore Unit where
  get_chunk _ _ _ _ := .error .Driver
  set_chunk _ _ _ _ _ := .error .Driver

/-!  ### The engine (`src/lib.rs`)  -/

/-- `lib.rs`: `pub struct Series`. -/
structure Series where
  schedule : Schedule
  data : RawSeries
deriving Repr, DecidableEq

/-- `Series::new`. -/
def Series.new (schedule : Schedule) : Series := ⟨schedule, RawSeries.new⟩

/-- `Series::try_insert`: insert the point iff the schedule contains its
time, reporting whether it was inserted (the mutated `self` is returned). -/
def Series.try_insert (s : Series) (data_point : DataPoint) : Bool × Series :=
  if s.schedule.contains data_point.time then
    (true, ⟨s.schedule, s.data.insert data_point⟩)
  else (false, s)

def alistGet {α : Type} : List (Int × α) → Int → Option α
  | [], _ => none
  | (k, v) :: rest, key => if key = k then some v else alistGet rest key

def alistInsert {α : Type} : List (Int × α) → Int → α → List (Int × α)
  | [], key, v => [(key, v)]
  | (k, w) :: rest, key, v =>
    if key = k then (key, v) :: rest else (k, w) :: alistInsert rest key v

def alistRemove {α : Type} : List (Int × α) → Int → List (Int × α)
  | [], _ => []
  | (k, w) :: rest, key => if key = k then rest else (k, w) :: alistRemove rest key

/-- `lib.rs`: `pub struct Kelpie`; the `HashMap<i64, Series>` is an
association list with at most one entry per key, and the chunk store state is
`σ`. -/
structure Kelpie (σ : Type) where
  chunk_store : σ
  series : List (Int × Series)
  schedule_config : ScheduleConfig

/-- `Kelpie::new_memory()` (spec-modelled in-memory sqlite store). -/
def Kelpie.new_memory : Kelpie (List StoreRow) :=
  ⟨[], [], ScheduleConfig.default⟩

/-- `Kelpie::query_exact_chunk`: live buffer first (matched on
`chunk_start == start` only), then the catalog.  `none` models the `unwrap`
panic on chunk decompression. -/
def Kelpie.query_exact_chunk {σ : Type} (S : KelpieChunkStore σ) (kel : Kelpie σ)
    (series_key start stop : Int) :
    Option (Except GetChunkError (Option (ChunkMeta × RawSeries))) :=
  match alistGet kel.series series_key with
  | some series =>
    if series.schedule.chunk_start = start then
      some (.ok (some (⟨series_key, start, stop⟩, series.data)))
    else
      match S.get_chunk kel.chunk_store series_key start stop with
      | .error e => some (.error e)
      | .ok none => some (.ok none)
      | .ok (some (meta, chunk)) =>
        match chunk.decompress with
        | some (.ok s) => some (.ok (some (meta, s)))
        | _ => none
  | none =>
    match S.get_chunk kel.chunk_store series_key start stop with
    | .error e => some (.error e)
    | .ok none => some (.ok none)
    | .ok (some (meta, chunk)) =>
      match chunk.decompress with
      | some (.ok s) => some (.ok (some (meta, s)))
      | _ => none

theorem i64min_le_schedule_end (cfg : ScheduleConfig) (t : Int) :
    i64min ≤ (cfg.init_schedule_from_time t).chunk_end :=
  le_max_left _ _

/-- The window-iteration loop of `Kelpie::query`: while `cur_start < stop`,
fetch the window of `cur_start`, append its contents, advance to the window
end.  The proof arguments pin the arguments to the i64 domain (they carry no
data); `cur_start` strictly increases (`schedule_end_progress`), which is the
termination measure.  `none` models a panic inside `query_exact_chunk`. -/
def Kelpie.queryLoop {σ : Type} (S : KelpieChunkStore σ) (kel : Kelpie σ)
    (series_key : Int) (stop : Int)
    (hc : 0 < kel.schedule_config.chunk_size)
    (hcM : kel.schedule_config.chunk_size ≤ i64max)
    (hstop : stop ≤ i64max)
    (cur_start : Int) (hcur : i64min ≤ cur_start)
    (map : List (Int × Nat)) :
    Option (Except GetChunkError (List (Int × Nat))) :=
  if h : cur_start < stop then
    match Kelpie.query_exact_chunk S kel series_key
        (kel.schedule_config.init_schedule_from_time cur_start).chunk_start
        (kel.schedule_config.init_schedule_from_time cur_start).chunk_end with
    | none => none
    | some (.error e) => some (.error e)
    | some (.ok (some (_meta, chunk))) =>
      Kelpie.queryLoop S kel series_key stop hc hcM hstop
        (kel.schedule_config.init_schedule_from_time cur_start).chunk_end
        (i64min_le_schedule_end _ _) (mapAppend map chunk.data)
    | some (.ok none) =>
      Kelpie.queryLoop S kel series_key stop hc hcM hstop
        (kel.schedule_config.init_schedule_from_time cur_start).chunk_end
        (i64min_le_schedule_end _ _) map
  else some (.ok map)
termination_by (stop - cur_start).toNat
decreasing_by
  all_goals
    have hprog : cur_start < (kel.schedule_config.init_schedule_from_time cur_start).chunk_end :=
      schedule_end_progress _ cur_start hc hcM hcur (by omega)
    omega

/-- `Kelpie::query`: run the window loop from `start` and trim the result to
`[start, stop)`. -/
def Kelpie.query {σ : Type} (S : KelpieChunkStore σ) (kel : Kelpie σ)
    (series_key start stop : Int)
    (hc : 0 < kel.schedule_config.chunk_size)
    (hcM : kel.schedule_config.chunk_size ≤ i64max)
    (hstart : i64min ≤ start) (hstop : stop ≤ i64max) :
    Option (Except GetChunkError RawSeries) :=
  match Kelpie.queryLoop S kel series_key stop hc hcM hstop start hstart [] with
  | none => none
  | some (.error e) => some (.error e)
  | some (.ok map) => some (.ok ⟨rangeFilter map start stop⟩)

/-- `Kelpie::save_series`: evict the live buffer (if any) into the catalog;
`none` models the `unwrap` panic on a driver error. -/
def Kelpie.save_series {σ : Type} (S : KelpieChunkStore σ) (kel : Kelpie σ)
    (series_key : Int) : Option (Kelpie σ) :=
  match alistGet kel.series series_key with
  | none => some kel
  | some series =>
    match S.set_chunk kel.chunk_store series_key series.schedule.chunk_start
        series.schedule.chunk_end (Chunk.compress_series series.data) with
    | .error _ => none
    | .ok store' =>
      some ⟨store', alistRemove kel.series series_key, kel.schedule_config⟩

/-- `Kelpie::load_series`: evict the current buffer, then re-materialize the
buffer for `schedule` from the catalog (or start empty).  `none` models the
`unwrap` panics on driver errors and on decompression failure. -/
def Kelpie.load_series {σ : Type} (S : KelpieChunkStore σ) (kel : Kelpie σ)
    (series_key : Int) (schedule : Schedule) : Option (Kelpie σ) :=
  match Kelpie.save_series S kel series_key with
  | none => none
  | some kel1 =>
    match S.get_chunk kel1.chunk_store series_key schedule.chunk_start
        schedule.chunk_end with
    | .error _ => none
    | .ok (some (_meta, chunk)) =>
      match chunk.decompress with
      | some (.ok raw_series) =>
        some ⟨kel1.chunk_store,
          alistInsert kel1.series series_key ⟨schedule, raw_series⟩,
          kel1.schedule_config⟩
      | _ => none
    | .ok none =>
      some ⟨kel1.chunk_store,
        alistInsert kel1.series series_key (Series.new schedule),
        kel1.schedule_config⟩

/-- `Kelpie::ensure_series_for`: keep the live buffer when it covers `time`,
otherwise load the buffer for the window of `time`. -/
def Kelpie.ensure_series_for {σ : Type} (S : KelpieChunkStore σ) (kel : Kelpie σ)
    (series_key time : Int) : Option (Kelpie σ) :=
  match alistGet kel.series series_key with
  | some series =>
    if series.schedule.contains time then some kel
    else Kelpie.load_series S kel series_key
      (kel.schedule_config.init_schedule_from_time time)
  | none => Kelpie.load_series S kel series_key
      (kel.schedule_config.init_schedule_from_time time)

/-- `Kelpie::insert`: silently drop NaN values, negative times and
`i64::MAX`; otherwise ensure a covering live buffer and insert into it.
`none` models the panics (driver unwraps inside ensure, the `.unwrap()` on the
live-map lookup, and the `assert!(series.try_insert(..))`). -/
def Kelpie.insert {σ : Type} (S : KelpieChunkStore σ) (kel : Kelpie σ)
    (series_key : Int) (data_point : DataPoint) : Option (Kelpie σ) :=
  if isNanBits data_point.value then some kel
  else if data_point.time < 0 then some kel
  else if data_point.time = i64max then some kel
  else
    match Kelpie.ensure_series_for S kel series_key data_point.time with
    | none => none
    | some kel1 =>
      match alistGet kel1.series series_key with
      | none => none
      | some series =>
        if (series.try_insert data_point).1 then
          some ⟨kel1.chunk_store,
            alistInsert kel1.series series_key (series.try_insert data_point).2,
            kel1.schedule_config⟩
        else none

/-- `lib.rs`: `pub struct KelpieFake` — the reference implementation. -/
structure KelpieFake where
  series : List (Int × RawSeries)
deriving Repr, DecidableEq

def KelpieFake.new : KelpieFake := ⟨[]⟩

/-- `KelpieFake::insert`: identical input filtering, then plain ordered-map
insertion. -/
def KelpieFake.insert (f : KelpieFake) (series_key : Int) (data_point : DataPoint) :
    KelpieFake :=
  if isNanBits data_point.value then f
  else if data_point.time < 0 then f
  else if data_point.time = i64max then f
  else
    let series := (alistGet f.series series_key).getD RawSeries.new
    ⟨alistInsert f.series series_key
      ⟨mapInsert series.data data_point.time data_point.value⟩⟩

/-- `KelpieFake::query`: an ordered-map range scan. -/
def KelpieFake.query (f : KelpieFake) (series_key start stop : Int) :
    Except GetChunkError RawSeries :=
  if start > stop then .ok RawSeries.new
  else
    match alistGet f.series series_key with
    | none => .ok RawSeries.new
    | some s => .ok ⟨rangeFilter s.data start stop⟩

theorem alistGet_insert_self {α : Type} (l : List (Int × α)) (k : Int) (v : α) :
    alistGet (alistInsert l k v) k = some v := by
  induction l with
  | nil => simp [alistInsert, alistGet]
  | cons kw rest ih =>
    unfold alistInsert
    by_cases h : k = kw.1
    · rw [if_pos h]
      simp [alistGet]
    · rw [if_neg h]
      unfold alistGet
      rw [if_neg h]
      exact ih

/-- C3: an insert whose point has a NaN value, a negative time, or
`time == i64::MAX` is silently dropped: no panic, no error, and the engine
state (live buffers and catalog) is exactly unchanged — so no subsequent query
can ever observe the point. -/
theorem claim_C3_silent_rejection {σ : Type} (S : KelpieChunkStore σ)
    (kel : Kelpie σ) (series_key : Int) (p : DataPoint)
    (h : isNanBits p.value = true ∨ p.time < 0 ∨ p.time = i64max) :
    Kelpie.insert S kel series_key p = some kel := by
  unfold Kelpie.insert
  rcases h with h | h | h
  · rw [if_pos h]
  · by_cases h1 : isNanBits p.value
    · rw [if_pos h1]
    · rw [if_neg h1, if_pos h]
  · by_cases h1 : isNanBits p.value
    · rw [if_pos h1]
    · rw [if_neg h1]
      by_cases h2 : p.time < 0
      · rw [if_pos h2]
      · rw [if_neg h2, if_pos h]

theorem claim_C3_silent_rejection_witness :
    (isNanBits 17 = true ∨ (-1 : Int) < 0 ∨ (-1 : Int) = i64max) ∧
    Kelpie.insert sqliteStore Kelpie.new_memory (-1) ⟨-1, 17⟩
      = some Kelpie.new_memory :=
  ⟨by right; left; decide,
   claim_C3_silent_rejection sqliteStore Kelpie.new_memory (-1) ⟨-1, 17⟩
     (by right; left; decide)⟩

/-- C7: for every validated insert (value not NaN, `0 ≤ time < i64::MAX`),
whenever `ensure_series_for` returns (does not panic) the live buffer's
schedule contains the point's time — so `try_insert` succeeds and the
`assert!` in `insert` never fires: `insert` completes with the point stored
in the live buffer. -/
theorem claim_C7_assert_unreachable {σ : Type} (S : KelpieChunkStore σ)
    (kel kel1 : Kelpie σ) (series_key : Int) (p : DataPoint)
    (hnan : isNanBits p.value = false) (ht0 : 0 ≤ p.time) (htM : p.time < i64max)
    (hcfg : 0 < kel.schedule_config.chunk_size)
    (hens : Kelpie.ensure_series_for S kel series_key p.time = some kel1) :
    ∃ series, alistGet kel1.series series_key = some series ∧
      series.schedule.contains p.time = true ∧
      (series.try_insert p).1 = true ∧
      Kelpie.insert S kel series_key p = some ⟨kel1.chunk_store,
        alistInsert kel1.series series_key (series.try_insert p).2,
        kel1.schedule_config⟩ := by
  have hsched : ∀ kel2, Kelpie.load_series S kel series_key
      (kel.schedule_config.init_schedule_from_time p.time) = some kel2 →
      ∃ series, alistGet kel2.series series_key = some series ∧
        series.schedule = kel.schedule_config.init_schedule_from_time p.time := by
    intro kel2 hload
    unfold Kelpie.load_series at hload
    split at hload
    · exact absurd hload (by simp)
    · split at hload
      · exact absurd hload (by simp)
      · split at hload
        · simp only [Option.some.injEq] at hload
          subst hload
          exact ⟨_, alistGet_insert_self _ _ _, rfl⟩
        · exact absurd hload (by simp)
      · simp only [Option.some.injEq] at hload
        subst hload
        exact ⟨_, alistGet_insert_self _ _ _, rfl⟩
  have hmain : ∃ series, alistGet kel1.series series_key = some series ∧
      series.schedule.contains p.time = true := by
    unfold Kelpie.ensure_series_for at hens
    split at hens
    · rename_i series hget
      split at hens
      · rename_i hcont
        simp only [Option.some.injEq] at hens
        subst hens
        exact ⟨series, hget, hcont⟩
      · rcases hsched kel1 hens with ⟨series', h1, h2⟩
        exact ⟨series', h1, h2 ▸ schedule_contains_self _ p.time hcfg ht0 htM⟩
    · rcases hsched kel1 hens with ⟨series', h1, h2⟩
      exact ⟨series', h1, h2 ▸ schedule_contains_self _ p.time hcfg ht0 htM⟩
  rcases hmain with ⟨series, h1, h2⟩
  have htry : (series.try_insert p).1 = true := by
    unfold Series.try_insert
    rw [if_pos h2]
  refine ⟨series, h1, h2, htry, ?_⟩
  unfold Kelpie.insert
  rw [if_neg (by simp [hnan]), if_neg (by omega), if_neg (by omega), hens]
  simp only [h1, htry, if_pos]

theorem claim_C7_assert_unreachable_witness :
    isNanBits 0 = false ∧ (0 : Int) ≤ 0 ∧ (0 : Int) < i64max ∧
    (0 : Int) < Kelpie.new_memory.schedule_config.chunk_size ∧
    Kelpie.ensure_series_for sqliteStore Kelpie.new_memory 0 (0 : Int)
      = some ⟨[], [((0 : Int), Series.new ⟨0, 3600000⟩)], ScheduleConfig.default⟩ ∧
    (∃ series,
      alistGet [((0 : Int), Series.new ⟨0, 3600000⟩)] (0 : Int) = some series ∧
      series.schedule.contains 0 = true ∧
      (series.try_insert ⟨0, 0⟩).1 = true ∧
      Kelpie.insert sqliteStore Kelpie.new_memory 0 ⟨0, 0⟩ = some ⟨[],
        alistInsert [((0 : Int), Series.new ⟨0, 3600000⟩)] 0
          ((series.try_insert ⟨0, 0⟩).2),
        ScheduleConfig.default⟩) :=
  ⟨rfl, by decide, by decide, by decide, rfl,
   claim_C7_assert_unreachable sqliteStore Kelpie.new_memory
     ⟨[], [((0 : Int), Series.new ⟨0, 3600000⟩)], ScheduleConfig.default⟩
     0 ⟨0, 0⟩ rfl (by decide) (by decide) (by decide) rfl⟩

/-- C8 counterexample: with a failing catalog driver, a validated insert on a
fresh series reaches the `.unwrap()` on `get_chunk` inside `load_series` and
panics (`none`): `Kelpie::insert` returns `()` in Rust and has no error
channel, so the driver error is not "propagated as an error result to the
caller" as the claim states for inserts. -/
theorem claim_C8_counterexample :
    Kelpie.insert failStore ⟨(), [], ScheduleConfig.default⟩ 0 ⟨0, 0⟩
      = (none : Option (Kelpie Unit)) := rfl

/-- C8 (amended): a catalog driver failure during a query is propagated to
the caller as an error result (`Err(GetChunkError::Driver)`), but a driver
failure during an insert is not propagated: `insert` has no error return and
panics on the internal `unwrap`. -/
theorem claim_C8_driver_error_propagation (kel : Kelpie Unit)
    (series_key start stop : Int)
    (hc : 0 < kel.schedule_config.chunk_size)
    (hcM : kel.schedule_config.chunk_size ≤ i64max)
    (hstart : i64min ≤ start) (hstop : stop ≤ i64max)
    (hlive : alistGet kel.series series_key = none)
    (hrange : start < stop) :
    Kelpie.query failStore kel series_key start stop hc hcM hstart hstop
      = some (.error .Driver) ∧
    (∀ p : DataPoint, isNanBits p.value = false → 0 ≤ p.time → p.time < i64max →
      Kelpie.insert failStore kel series_key p = none) := by
  constructor
  · unfold Kelpie.query
    unfold Kelpie.queryLoop
    rw [dif_pos hrange]
    unfold Kelpie.query_exact_chunk
    rw [hlive]
    rfl
  · intro p hnan ht0 htM
    unfold Kelpie.insert
    rw [if_neg (by simp [hnan]), if_neg (by omega), if_neg (by omega)]
    unfold Kelpie.ensure_series_for
    rw [hlive]
    unfold Kelpie.load_series Kelpie.save_series
    rw [hlive]
    rfl

theorem claim_C8_driver_error_propagation_witness :
    alistGet ([] : List (Int × Series)) 0 = none ∧ (0 : Int) < 1 ∧
    Kelpie.query failStore ⟨(), [], ScheduleConfig.default⟩ 0 0 1
        (by decide) (by decide) (by decide) (by decide)
      = some (.error .Driver) :=
  ⟨rfl, by decide,
   (claim_C8_driver_error_propagation ⟨(), [], ScheduleConfig.default⟩ 0 0 1
     (by decide) (by decide) (by decide) (by decide) rfl (by decide)).1⟩

/-- C4: every key of a query result lies in `[start, stop)` — in particular a
point stored at exactly `stop` never appears — and for `start ≥ stop` the
query returns the empty series. -/
theorem claim_C4_query_range {σ : Type} (S : KelpieChunkStore σ) (kel : Kelpie σ)
    (series_key start stop : Int)
    (hc : 0 < kel.schedule_config.chunk_size)
    (hcM : kel.schedule_config.chunk_size ≤ i64max)
    (hstart : i64min ≤ start) (hstop : stop ≤ i64max) :
    (∀ r, Kelpie.query S kel series_key start stop hc hcM hstart hstop
        = some (.ok r) →
      ∀ kv ∈ r.data, start ≤ kv.1 ∧ kv.1 < stop) ∧
    (stop ≤ start →
      Kelpie.query S kel series_key start stop hc hcM hstart hstop
        = some (.ok ⟨[]⟩)) := by
  constructor
  · intro r hr kv hkv
    unfold Kelpie.query at hr
    split at hr
    · exact absurd hr (by simp)
    · exact absurd hr (by simp)
    · simp only [Option.some.injEq, Except.ok.injEq] at hr
      subst hr
      have h := List.mem_filter.mp hkv
      have h2 := h.2
      simp only [Bool.and_eq_true, decide_eq_true_eq] at h2
      exact h2
  · intro hge
    unfold Kelpie.query
    unfold Kelpie.queryLoop
    rw [dif_neg (by omega)]
    rfl

theorem claim_C4_query_range_witness :
    (0 : Int) < ScheduleConfig.default.chunk_size ∧ (3 : Int) ≤ 5 ∧
    Kelpie.query sqliteStore Kelpie.new_memory 0 5 3
        (by decide) (by decide) (by decide) (by decide)
      = some (.ok ⟨[]⟩) :=
  ⟨by decide, by decide,
   (claim_C4_query_range sqliteStore Kelpie.new_memory 0 5 3
     (by decide) (by decide) (by decide) (by decide)).2 (by decide)⟩

/-- C10: for every `chunk_size > 0` and all i64 `start`/`stop` (negative
values and values near `i64::MAX`, where `chunk_end` saturates, included),
the window loop of `query` terminates: at every iteration with
`cur_start < stop`, the next cursor `init_schedule(cur_start).chunk_end`
strictly exceeds `cur_start`, so the measure `(stop - cur_start).toNat` used
by `Kelpie.queryLoop` strictly decreases. -/
theorem claim_C10_query_terminates (cfg : ScheduleConfig) (cur_start stop : Int)
    (hc : 0 < cfg.chunk_size) (hcM : cfg.chunk_size ≤ i64max)
    (hcur : i64min ≤ cur_start) (h : cur_start < stop) (hstop : stop ≤ i64max) :
    cur_start < (cfg.init_schedule_from_time cur_start).chunk_end ∧
    (stop - (cfg.init_schedule_from_time cur_start).chunk_end).toNat
      < (stop - cur_start).toNat := by
  have hprog : cur_start < (cfg.init_schedule_from_time cur_start).chunk_end :=
    schedule_end_progress cfg cur_start hc hcM hcur (by omega)
  exact ⟨hprog, by omega⟩

theorem claim_C10_query_terminates_witness :
    (0 : Int) < 10 ∧ (-25 : Int) < 40 ∧
    (-25 : Int) < ((⟨10⟩ : ScheduleConfig).init_schedule_from_time (-25)).chunk_end :=
  ⟨by decide, by decide,
   (claim_C10_query_terminates ⟨10⟩ (-25) 40 (by decide) (by decide) (by decide)
     (by decide) (by decide)).1⟩

/-!  ### Sorted-map lemmas for the parity proof  -/

theorem sorted_cons_lt (kw : Int × Nat) (rest : List (Int × Nat))
    (hs : KeysSorted (kw :: rest)) : ∀ kv ∈ rest, kw.1 < kv.1 := by
  have hp := List.chain'_iff_pairwise.mp hs
  exact (List.pairwise_cons.mp hp).1

theorem sorted_tail (kw : Int × Nat) (rest : List (Int × Nat))
    (hs : KeysSorted (kw :: rest)) : KeysSorted rest := by
  have hp := List.chain'_iff_pairwise.mp hs
  exact List.chain'_iff_pairwise.mpr (List.pairwise_cons.mp hp).2

theorem sorted_cons_of (kw : Int × Nat) (rest : List (Int × Nat))
    (h1 : ∀ kv ∈ rest, kw.1 < kv.1) (h2 : KeysSorted rest) :
    KeysSorted (kw :: rest) := by
  refine List.chain'_iff_pairwise.mpr (List.pairwise_cons.mpr ⟨h1, ?_⟩)
  exact List.chain'_iff_pairwise.mp h2

theorem mem_mapInsert_self (m : List (Int × Nat)) (t : Int) (v : Nat) :
    (t, v) ∈ mapInsert m t v := by
  induction m with
  | nil => simp [mapInsert]
  | cons kw rest ih =>
    unfold mapInsert
    split
    · exact List.mem_cons_self _ _
    · split
      · exact List.mem_cons_self _ _
      · exact List.mem_cons_of_mem _ ih

theorem mem_mapInsert_of_ne (m : List (Int × Nat)) (t : Int) (v : Nat)
    (kv : Int × Nat) (h : kv ∈ m) (hne : kv.1 ≠ t) : kv ∈ mapInsert m t v := by
  induction m with
  | nil => simp at h
  | cons kw rest ih =>
    unfold mapInsert
    rcases List.mem_cons.mp h with rfl | h'
    · split
      · exact List.mem_cons_of_mem _ (List.mem_cons_self _ _)
      · split
        · rename_i h3
          exact absurd h3.symm hne
        · exact List.mem_cons_self _ _
    · split
      · exact List.mem_cons_of_mem _ (List.mem_cons_of_mem _ h')
      · split
        · exact List.mem_cons_of_mem _ h'
        · exact List.mem_cons_of_mem _ (ih h')

theorem mem_mapInsert_weak (m : List (Int × Nat)) (t : Int) (v : Nat)
    (kv : Int × Nat) (h : kv ∈ mapInsert m t v) : kv = (t, v) ∨ kv ∈ m := by
  induction m with
  | nil => simpa [mapInsert] using h
  | cons kw rest ih =>
    unfold mapInsert at h
    split at h
    · rcases List.mem_cons.mp h with rfl | h'
      · exact Or.inl rfl
      · exact Or.inr h'
    · split at h
      · rcases List.mem_cons.mp h with rfl | h'
        · exact Or.inl rfl
        · exact Or.inr (List.mem_cons_of_mem _ h')
      · rcases List.mem_cons.mp h with rfl | h'
        · exact Or.inr (List.mem_cons_self _ _)
        · rcases ih h' with h'' | h''
          · exact Or.inl h''
          · exact Or.inr (List.mem_cons_of_mem _ h'')

theorem mem_mapInsert_iff (m : List (Int × Nat)) (t : Int) (v : Nat)
    (kv : Int × Nat) (hs : KeysSorted m) :
    kv ∈ mapInsert m t v ↔ kv = (t, v) ∨ (kv ∈ m ∧ kv.1 ≠ t) := by
  constructor
  · intro h
    induction m with
    | nil =>
      simp only [mapInsert] at h
      rcases List.mem_cons.mp h with rfl | h'
      · exact Or.inl rfl
      · simp at h'
    | cons kw rest ih =>
      have hlt := sorted_cons_lt kw rest hs
      unfold mapInsert at h
      split at h
      · rename_i h1
        rcases List.mem_cons.mp h with rfl | h'
        · exact Or.inl rfl
        · refine Or.inr ⟨h', ?_⟩
          rcases List.mem_cons.mp h' with rfl | h''
          · omega
          · have := hlt kv h''
            omega
      · split at h
        · rename_i h1 h2
          rcases List.mem_cons.mp h with rfl | h'
          · exact Or.inl rfl
          · have := hlt kv h'
            refine Or.inr ⟨List.mem_cons_of_mem _ h', by omega⟩
        · rename_i h1 h2
          rcases List.mem_cons.mp h with rfl | h'
          · exact Or.inr ⟨List.mem_cons_self _ _, by omega⟩
          · rcases ih (sorted_tail kw rest hs) h' with h'' | ⟨h3, h4⟩
            · exact Or.inl h''
            · exact Or.inr ⟨List.mem_cons_of_mem _ h3, h4⟩
  · intro h
    rcases h with rfl | ⟨h1, h2⟩
    · exact mem_mapInsert_self m t v
    · exact mem_mapInsert_of_ne m t v kv h1 h2

theorem mapInsert_sorted (m : List (Int × Nat)) (t : Int) (v : Nat)
    (hs : KeysSorted m) : KeysSorted (mapInsert m t v) := by
  induction m with
  | nil => simp [mapInsert, KeysSorted]
  | cons kw rest ih =>
    have hlt := sorted_cons_lt kw rest hs
    have htail := sorted_tail kw rest hs
    unfold mapInsert
    split
    · rename_i h1
      refine sorted_cons_of _ _ ?_ hs
      intro kv hkv
      rcases List.mem_cons.mp hkv with rfl | h'
      · exact h1
      · have := hlt kv h'
        omega
    · split
      · rename_i h1 h2
        refine sorted_cons_of _ _ ?_ htail
        intro kv hkv
        have := hlt kv hkv
        omega
      · rename_i h1 h2
        refine sorted_cons_of _ _ ?_ (ih htail)
        intro kv hkv
        rcases mem_mapInsert_weak rest t v kv hkv with rfl | h'
        · simp only
          omega
        · exact hlt kv h'

theorem sorted_functional (l : List (Int × Nat)) (hs : KeysSorted l)
    (t : Int) (v v' : Nat) (h1 : (t, v) ∈ l) (h2 : (t, v') ∈ l) : v = v' := by
  induction l with
  | nil => simp at h1
  | cons kw rest ih =>
    have hlt := sorted_cons_lt kw rest hs
    rcases List.mem_cons.mp h1 with e1 | m1
    · rcases List.mem_cons.mp h2 with e2 | m2
      · rw [← e1] at e2
        exact (Prod.mk.injEq _ _ _ _ ▸ e2).2.symm
      · have := hlt (t, v') m2
        rw [← e1] at this
        simp at this
    · rcases List.mem_cons.mp h2 with e2 | m2
      · have := hlt (t, v) m1
        rw [← e2] at this
        simp at this
      · exact ih (sorted_tail kw rest hs) m1 m2

theorem mem_rangeFilter (l : List (Int × Nat)) (a b : Int) (kv : Int × Nat) :
    kv ∈ rangeFilter l a b ↔ kv ∈ l ∧ a ≤ kv.1 ∧ kv.1 < b := by
  unfold rangeFilter
  rw [List.mem_filter]
  simp

theorem rangeFilter_sorted (l : List (Int × Nat)) (a b : Int)
    (hs : KeysSorted l) : KeysSorted (rangeFilter l a b) := by
  have hp := List.chain'_iff_pairwise.mp hs
  exact List.chain'_iff_pairwise.mpr (List.Pairwise.sublist (List.filter_sublist l) hp)

theorem rangeFilter_empty_of_le (l : List (Int × Nat)) (a b : Int)
    (h : b ≤ a) : rangeFilter l a b = [] := by
  unfold rangeFilter
  induction l with
  | nil => rfl
  | cons kw rest ih =>
    rw [List.filter_cons]
    split
    · rename_i hcond
      simp only [Bool.and_eq_true, decide_eq_true_eq] at hcond
      omega
    · exact ih

theorem sorted_eq_of_mem_iff : ∀ (l l' : List (Int × Nat)),
    KeysSorted l → KeysSorted l' → (∀ kv, kv ∈ l ↔ kv ∈ l') → l = l'
  | [], [], _, _, _ => rfl
  | [], b :: l', _, _, h => by
    have := (h b).mpr (List.mem_cons_self _ _)
    simp at this
  | a :: l, [], _, _, h => by
    have := (h a).mp (List.mem_cons_self _ _)
    simp at this
  | a :: l₁, b :: l₁', hs, hs', h => by
    have hab : a = b := by
      have ha := (h a).mp (List.mem_cons_self _ _)
      have hb := (h b).mpr (List.mem_cons_self _ _)
      rcases List.mem_cons.mp ha with e | m
      · exact e
      · rcases List.mem_cons.mp hb with e | m'
        · exact e.symm
        · have h1 := sorted_cons_lt b l₁' hs' a m
          have h2 := sorted_cons_lt a l₁ hs b m'
          omega
    subst hab
    have htails : ∀ kv, kv ∈ l₁ ↔ kv ∈ l₁' := by
      intro kv
      constructor
      · intro hkv
        have := (h kv).mp (List.mem_cons_of_mem _ hkv)
        rcases List.mem_cons.mp this with e | m
        · have := sorted_cons_lt a l₁ hs kv hkv
          subst e
          omega
        · exact m
      · intro hkv
        have := (h kv).mpr (List.mem_cons_of_mem _ hkv)
        rcases List.mem_cons.mp this with e | m
        · have := sorted_cons_lt a l₁' hs' kv hkv
          subst e
          omega
        · exact m
    rw [sorted_eq_of_mem_iff l₁ l₁' (sorted_tail _ _ hs) (sorted_tail _ _ hs') htails]

theorem mapAppend_sorted (m other : List (Int × Nat)) (hs : KeysSorted m) :
    KeysSorted (mapAppend m other) := by
  induction other generalizing m with
  | nil => exact hs
  | cons a rest ih =>
    unfold mapAppend at ih ⊢
    rw [List.foldl_cons]
    exact ih _ (mapInsert_sorted m a.1 a.2 hs)

theorem mem_mapAppend_elim (m other : List (Int × Nat)) (kv : Int × Nat)
    (h : kv ∈ mapAppend m other) : kv ∈ m ∨ kv ∈ other := by
  induction other generalizing m with
  | nil => exact Or.inl h
  | cons a rest ih =>
    unfold mapAppend at h ih
    rw [List.foldl_cons] at h
    rcases ih _ h with h' | h'
    · rcases mem_mapInsert_weak m a.1 a.2 kv h' with rfl | h''
      · exact Or.inr (List.mem_cons_self _ _)
      · exact Or.inl h''
    · exact Or.inr (List.mem_cons_of_mem _ h')

theorem mem_mapAppend_left (m other : List (Int × Nat)) (kv : Int × Nat)
    (h : kv ∈ m) (hag : ∀ v', (kv.1, v') ∈ other → v' = kv.2) :
    kv ∈ mapAppend m other := by
  induction other generalizing m with
  | nil => exact h
  | cons a rest ih =>
    unfold mapAppend at ih ⊢
    rw [List.foldl_cons]
    by_cases he : kv.1 = a.1
    · have hv : a.2 = kv.2 := hag a.2 (by rw [he]; exact List.mem_cons_self _ _)
      have hkva : kv = (a.1, a.2) := by
        rcases kv with ⟨k1, k2⟩
        simp only at he hv
        rw [he, hv]
      have hm : kv ∈ mapInsert m a.1 a.2 := by
        rw [hkva]
        exact mem_mapInsert_self m a.1 a.2
      exact ih _ hm (fun v' hv' => hag v' (List.mem_cons_of_mem _ hv'))
    · exact ih _ (mem_mapInsert_of_ne m a.1 a.2 kv h he)
        (fun v' hv' => hag v' (List.mem_cons_of_mem _ hv'))

theorem mem_mapAppend_right (m other : List (Int × Nat)) (kv : Int × Nat)
    (ho : KeysSorted other) (h : kv ∈ other) : kv ∈ mapAppend m other := by
  induction other generalizing m with
  | nil => simp at h
  | cons a rest ih =>
    have hlt := sorted_cons_lt a rest ho
    unfold mapAppend at ih ⊢
    rw [List.foldl_cons]
    rcases List.mem_cons.mp h with rfl | h'
    · have hm : (kv.1, kv.2) ∈ mapInsert m kv.1 kv.2 := mem_mapInsert_self m kv.1 kv.2
      refine mem_mapAppend_left _ rest kv ?_ ?_
      · simpa using hm
      · intro v' hv'
        have := hlt (kv.1, v') hv'
        simp at this
    · exact ih _ (sorted_tail a rest ho) h'

theorem rangeFilter_mapInsert_inside (m : List (Int × Nat)) (t : Int) (v : Nat)
    (a b : Int) (hs : KeysSorted m) (hin : a ≤ t ∧ t < b) :
    rangeFilter (mapInsert m t v) a b = mapInsert (rangeFilter m a b) t v := by
  apply sorted_eq_of_mem_iff
  · exact rangeFilter_sorted _ a b (mapInsert_sorted m t v hs)
  · exact mapInsert_sorted _ t v (rangeFilter_sorted m a b hs)
  · intro kv
    rw [mem_rangeFilter, mem_mapInsert_iff _ _ _ _ hs,
      mem_mapInsert_iff _ _ _ _ (rangeFilter_sorted m a b hs), mem_rangeFilter]
    constructor
    · rintro ⟨h1 | ⟨h1, h2⟩, h3⟩
      · exact Or.inl h1
      · exact Or.inr ⟨⟨h1, h3⟩, h2⟩
    · rintro (rfl | ⟨⟨h1, h3⟩, h2⟩)
      · exact ⟨Or.inl rfl, hin⟩
      · exact ⟨Or.inr ⟨h1, h2⟩, h3⟩

theorem rangeFilter_mapInsert_outside (m : List (Int × Nat)) (t : Int) (v : Nat)
    (a b : Int) (hs : KeysSorted m) (hout : ¬(a ≤ t ∧ t < b)) :
    rangeFilter (mapInsert m t v) a b = rangeFilter m a b := by
  apply sorted_eq_of_mem_iff
  · exact rangeFilter_sorted _ a b (mapInsert_sorted m t v hs)
  · exact rangeFilter_sorted m a b hs
  · intro kv
    rw [mem_rangeFilter, mem_mapInsert_iff _ _ _ _ hs, mem_rangeFilter]
    constructor
    · rintro ⟨h1 | ⟨h1, h2⟩, h3⟩
      · rw [h1] at h3
        exact absurd h3 hout
      · exact ⟨h1, h3⟩
    · rintro ⟨h1, h3⟩
      refine ⟨Or.inr ⟨h1, ?_⟩, h3⟩
      intro he
      rw [he] at h3
      exact hout h3

theorem sorted_range_length : ∀ (l : List (Int × Nat)) (s e : Int),
    KeysSorted l → (∀ kv ∈ l, s ≤ kv.1 ∧ kv.1 < e) → l.length ≤ (e - s).toNat := by
  intro l
  induction l with
  | nil => intro s e _ _; simp
  | cons a rest ih =>
    intro s e hs hb
    have hlt := sorted_cons_lt a rest hs
    have ha := hb a (List.mem_cons_self _ _)
    have hrest := ih (a.1 + 1) e (sorted_tail a rest hs)
      (fun kv hkv => ⟨by have := hlt kv hkv; omega,
        (hb kv (List.mem_cons_of_mem _ hkv)).2⟩)
    rw [List.length_cons]
    omega

theorem alistGet_insert_ne {α : Type} (l : List (Int × α)) (k k' : Int) (v : α)
    (h : k' ≠ k) : alistGet (alistInsert l k v) k' = alistGet l k' := by
  induction l with
  | nil => simp [alistInsert, alistGet, h]
  | cons kw rest ih =>
    unfold alistInsert
    by_cases he : k = kw.1
    · rw [if_pos he]
      unfold alistGet
      rw [if_neg h, if_neg (by omega)]
    · rw [if_neg he]
      unfold alistGet
      by_cases he' : k' = kw.1
      · rw [if_pos he', if_pos he']
      · rw [if_neg he', if_neg he']
        exact ih

theorem alistGet_remove_ne {α : Type} (l : List (Int × α)) (k k' : Int)
    (h : k' ≠ k) : alistGet (alistRemove l k) k' = alistGet l k' := by
  induction l with
  | nil => rfl
  | cons kw rest ih =>
    unfold alistRemove
    by_cases he : k = kw.1
    · rw [if_pos he]
      show alistGet rest k' = if k' = kw.1 then some kw.2 else alistGet rest k'
      rw [if_neg (by omega)]
    · rw [if_neg he]
      show (if k' = kw.1 then some kw.2 else alistGet (alistRemove rest k) k')
        = if k' = kw.1 then some kw.2 else alistGet rest k'
      rw [ih]

theorem alistRemove_keys_sub {α : Type} (l : List (Int × α)) (k : Int) :
    ∀ kv ∈ alistRemove l k, kv ∈ l := by
  induction l with
  | nil => simp [alistRemove]
  | cons kw rest ih =>
    unfold alistRemove
    split
    · intro kv hkv
      exact List.mem_cons_of_mem _ hkv
    · intro kv hkv
      rcases List.mem_cons.mp hkv with rfl | h'
      · exact List.mem_cons_self _ _
      · exact List.mem_cons_of_mem _ (ih kv h')

theorem alistGet_mem_keys {α : Type} (l : List (Int × α)) (k : Int) (v : α)
    (h : alistGet l k = some v) : k ∈ l.map Prod.fst := by
  induction l with
  | nil => simp [alistGet] at h
  | cons kw rest ih =>
    unfold alistGet at h
    split at h
    · rename_i h'
      rw [List.map_cons]
      exact h' ▸ List.mem_cons_self _ _
    · exact List.mem_cons_of_mem _ (ih h)

theorem alistGet_remove_self {α : Type} (l : List (Int × α)) (k : Int)
    (hnd : (l.map Prod.fst).Nodup) : alistGet (alistRemove l k) k = none := by
  induction l with
  | nil => rfl
  | cons kw rest ih =>
    rw [List.map_cons, List.nodup_cons] at hnd
    unfold alistRemove
    by_cases he : k = kw.1
    · rw [if_pos he]
      rcases hget : alistGet rest k with _ | v
      · rfl
      · exact absurd (he ▸ alistGet_mem_keys rest k v hget) hnd.1
    · rw [if_neg he]
      show (if k = kw.1 then some kw.2 else alistGet (alistRemove rest k) k) = none
      rw [if_neg he]
      exact ih hnd.2

theorem alistInsert_keys_iff {α : Type} (l : List (Int × α)) (k : Int) (v : α)
    (x : Int) :
    x ∈ (alistInsert l k v).map Prod.fst ↔ x ∈ l.map Prod.fst ∨ x = k := by
  induction l with
  | nil => simp [alistInsert]
  | cons kw rest ih =>
    unfold alistInsert
    by_cases he : k = kw.1
    · rw [if_pos he]
      subst he
      simp only [List.map_cons, List.mem_cons]
      tauto
    · rw [if_neg he]
      simp only [List.map_cons, List.mem_cons]
      rw [ih]
      tauto

theorem alistInsert_nodup {α : Type} (l : List (Int × α)) (k : Int) (v : α)
    (hnd : (l.map Prod.fst).Nodup) : ((alistInsert l k v).map Prod.fst).Nodup := by
  induction l with
  | nil => simp [alistInsert]
  | cons kw rest ih =>
    rw [List.map_cons, List.nodup_cons] at hnd
    unfold alistInsert
    by_cases he : k = kw.1
    · rw [if_pos he]
      rw [List.map_cons, List.nodup_cons]
      exact ⟨he ▸ hnd.1, hnd.2⟩
    · rw [if_neg he]
      rw [List.map_cons, List.nodup_cons]
      refine ⟨?_, ih hnd.2⟩
      intro hmem
      rcases (alistInsert_keys_iff rest k v kw.1).mp hmem with h' | h'
      · exact hnd.1 h'
      · exact he h'.symm

theorem alistRemove_nodup {α : Type} (l : List (Int × α)) (k : Int)
    (hnd : (l.map Prod.fst).Nodup) : ((alistRemove l k).map Prod.fst).Nodup := by
  induction l with
  | nil => simp [alistRemove]
  | cons kw rest ih =>
    rw [List.map_cons, List.nodup_cons] at hnd
    unfold alistRemove
    split
    · exact hnd.2
    · rw [List.map_cons, List.nodup_cons]
      constructor
      · intro hmem
        apply hnd.1
        rw [List.mem_map] at hmem ⊢
        rcases hmem with ⟨kv, hkv, he⟩
        exact ⟨kv, alistRemove_keys_sub rest k kv hkv, he⟩
      · exact ih hnd.2

/-!  ### Aligned windows and the catalog lookup  -/

/-- The shape of every schedule the engine creates for an accepted point:
a nonnegative aligned start below `i64::MAX`, the end one saturated chunk
later. -/
def WfSched (c : Int) (W : Schedule) : Prop :=
  0 ≤ W.chunk_start ∧ W.chunk_start % c = 0 ∧ W.chunk_start < i64max ∧
    W.chunk_end = satAdd W.chunk_start c

theorem aligned_spacing (c s1 s2 : Int) (hc : 0 < c)
    (h1 : s1 % c = 0) (h2 : s2 % c = 0) (hlt : s1 < s2) : s1 + c ≤ s2 := by
  have hd : c ∣ (s2 - s1) :=
    dvd_sub (Int.dvd_of_emod_eq_zero h2) (Int.dvd_of_emod_eq_zero h1)
  have := Int.le_of_dvd (by omega) hd
  omega

theorem init_schedule_wf (cfg : ScheduleConfig) (t : Int)
    (hc : 0 < cfg.chunk_size) (ht0 : 0 ≤ t) (htM : t < i64max) :
    WfSched cfg.chunk_size (cfg.init_schedule_from_time t) := by
  refine ⟨?_, schedule_start_aligned cfg t, ?_, rfl⟩
  · exact mul_nonneg (Int.tdiv_nonneg ht0 (by omega)) (by omega)
  · have := tdiv_mul_le_self t cfg.chunk_size ht0 hc
    show Int.tdiv t cfg.chunk_size * cfg.chunk_size < i64max
    omega

theorem satAdd_gt_self (s c : Int) (hs0 : 0 ≤ s) (hsM : s < i64max) (hc : 0 < c) :
    s < satAdd s c := by
  unfold satAdd i64max i64min at *
  omega

theorem aligned_row_match (c : Int) (hc : 0 < c) (row : StoreRow)
    (hrow : WfSched c ⟨row.start, row.stop⟩)
    (s : Int) (hs0 : 0 ≤ s) (hsa : s % c = 0) (hsM : s < i64max) :
    (row.start ≤ s ∧ satAdd s c ≤ row.stop) ↔
      (row.start = s ∧ row.stop = satAdd s c) := by
  rcases hrow with ⟨hr0, hra, hrM, hre⟩
  simp only at hr0 hra hrM hre
  constructor
  · rintro ⟨h1, h2⟩
    by_cases he : row.start = s
    · exact ⟨he, by rw [hre, he]⟩
    · exfalso
      have hlt : row.start < s := by omega
      have hsp : row.start + c ≤ s := aligned_spacing c row.start s hc hra hsa hlt
      have hs_end : s < satAdd s c := satAdd_gt_self s c hs0 hsM hc
      have hstop : row.stop ≤ row.start + c := by
        rw [hre]
        unfold satAdd i64max i64min at *
        omega
      omega
  · rintro ⟨h1, h2⟩
    exact ⟨le_of_eq h1, le_of_eq h2.symm⟩

/-- The most recently inserted catalog row with exactly `(series, start)`. -/
def lastRowAt (rows : List StoreRow) (k s : Int) : Option StoreRow :=
  rows.foldl (fun best r => if r.series = k ∧ r.start = s then some r else best) none

theorem sqlite_fold_eq (c k s : Int) (hc : 0 < c) (hs0 : 0 ≤ s)
    (hsa : s % c = 0) (hsM : s < i64max) :
    ∀ (rows : List StoreRow) (acc : Option StoreRow),
    (∀ row ∈ rows, WfSched c ⟨row.start, row.stop⟩) →
    (∀ b, acc = some b → b.start = s) →
    rows.foldl (fun best r =>
      if r.series = k ∧ r.start ≤ s ∧ satAdd s c ≤ r.stop then
        match best with
        | none => some r
        | some b => if b.start ≤ r.start then some r else some b
      else best) acc
    = rows.foldl (fun best r => if r.series = k ∧ r.start = s then some r else best)
        acc := by
  intro rows
  induction rows with
  | nil => intro acc _ _; rfl
  | cons r rest ih =>
    intro acc hw hacc
    rw [List.foldl_cons, List.foldl_cons]
    have hr := hw r (List.mem_cons_self _ _)
    by_cases hmatch : r.series = k ∧ r.start = s
    · have hre : r.stop = satAdd r.start c := hr.2.2.2
      have hpred : r.series = k ∧ r.start ≤ s ∧ satAdd s c ≤ r.stop := by
        refine ⟨hmatch.1, le_of_eq hmatch.2, ?_⟩
        rw [hre, hmatch.2]
      rw [if_pos hpred, if_pos hmatch]
      rcases acc with _ | b
      · exact ih (some r) (fun row hrow => hw row (List.mem_cons_of_mem _ hrow))
          (fun b hb => by cases hb; exact hmatch.2)
      · have hb := hacc b rfl
        have hble : b.start ≤ r.start := by omega
        show List.foldl (fun best r =>
            if r.series = k ∧ r.start ≤ s ∧ satAdd s c ≤ r.stop then
              match best with
              | none => some r
              | some b => if b.start ≤ r.start then some r else some b
            else best) (if b.start ≤ r.start then some r else some b) rest = _
        rw [if_pos hble]
        exact ih (some r) (fun row hrow => hw row (List.mem_cons_of_mem _ hrow))
          (fun b hb => by cases hb; exact hmatch.2)
    · have hpred : ¬(r.series = k ∧ r.start ≤ s ∧ satAdd s c ≤ r.stop) := by
        rintro ⟨ha, hb, hc'⟩
        have := (aligned_row_match c hc r hr s hs0 hsa hsM).mp ⟨hb, hc'⟩
        exact hmatch ⟨ha, this.1⟩
      rw [if_neg hpred, if_neg hmatch]
      exact ih acc (fun row hrow => hw row (List.mem_cons_of_mem _ hrow)) hacc

theorem sqlite_get_aligned (rows : List StoreRow) (c k s : Int) (hc : 0 < c)
    (hrows : ∀ row ∈ rows, WfSched c ⟨row.start, row.stop⟩)
    (hs0 : 0 ≤ s) (hsa : s % c = 0) (hsM : s < i64max) :
    sqlite_get_chunk rows k s (satAdd s c)
      = (lastRowAt rows k s).map (fun r => (⟨k, r.start, r.stop⟩, r.chunk)) := by
  unfold sqlite_get_chunk lastRowAt
  rw [sqlite_fold_eq c k s hc hs0 hsa hsM rows none hrows (by simp)]

theorem sqlite_get_neg (rows : List StoreRow) (c k s e : Int) (hc : 0 < c)
    (hrows : ∀ row ∈ rows, WfSched c ⟨row.start, row.stop⟩) (hs : s < 0) :
    sqlite_get_chunk rows k s e = none := by
  unfold sqlite_get_chunk
  have hfold : rows.foldl (fun best r =>
      if r.series = k ∧ r.start ≤ s ∧ e ≤ r.stop then
        match best with
        | none => some r
        | some b => if b.start ≤ r.start then some r else some b
      else best) none = none := by
    induction rows with
    | nil => rfl
    | cons r rest ih =>
      rw [List.foldl_cons]
      have hr := hrows r (List.mem_cons_self _ _)
      rw [if_neg (by rintro ⟨_, hb, _⟩; have := hr.1; simp only at this; omega)]
      exact ih (fun row hrow => hrows row (List.mem_cons_of_mem _ hrow))
  rw [hfold]
  rfl

theorem lastRowAt_append (rows : List StoreRow) (row : StoreRow) (k s : Int) :
    lastRowAt (rows ++ [row]) k s
      = if row.series = k ∧ row.start = s then some row else lastRowAt rows k s := by
  unfold lastRowAt
  rw [List.foldl_append, List.foldl_cons, List.foldl_nil]

theorem lastRowAt_mem (rows : List StoreRow) (k s : Int) (r : StoreRow)
    (h : lastRowAt rows k s = some r) :
    r ∈ rows ∧ r.series = k ∧ r.start = s := by
  unfold lastRowAt at h
  have haux : ∀ (rows' : List StoreRow) (acc : Option StoreRow),
      rows'.foldl (fun best r' =>
        if r'.series = k ∧ r'.start = s then some r' else best) acc = some r →
      acc = some r ∨ (r ∈ rows' ∧ r.series = k ∧ r.start = s) := by
    intro rows'
    induction rows' with
    | nil => intro acc h'; exact Or.inl h'
    | cons r' rest ih =>
      intro acc h'
      rw [List.foldl_cons] at h'
      rcases ih _ h' with h'' | h''
      · split at h''
        · rename_i hcond
          cases h''
          exact Or.inr ⟨List.mem_cons_self _ _, hcond⟩
        · exact Or.inl h''
      · exact Or.inr ⟨List.mem_cons_of_mem _ h''.1, h''.2⟩
  rcases haux rows none h with h' | h'
  · exact absurd h' (by simp)
  · exact h'

/-!  ### The engine/reference simulation invariant  -/

/-- The reference's map for a series key (empty when absent). -/
def fakeData (f : KelpieFake) (k : Int) : List (Int × Nat) :=
  ((alistGet f.series k).getD RawSeries.new).data

/-- The decompressed content of an optional catalog row (empty when absent or
undecodable; the invariant rules the latter out). -/
def decodedRow : Option StoreRow → List (Int × Nat)
  | none => []
  | some r =>
    match raw_decompress r.chunk.compressed_data with
    | some (.ok s) => s.data
    | _ => []

/-- The simulation invariant between an engine state and the reference:
every window's observable content (live buffer if its start matches, else the
most recent catalog row) is exactly the reference restricted to that
window. -/
structure EngineInv (kel : Kelpie (List StoreRow)) (f : KelpieFake) : Prop where
  cfg_pos : 0 < kel.schedule_config.chunk_size
  cfg_small : kel.schedule_config.chunk_size ≤ 2 ^ 40
  nodup : (kel.series.map Prod.fst).Nodup
  fake_sorted : ∀ k, KeysSorted (fakeData f k)
  fake_range : ∀ k, ∀ kv ∈ fakeData f k, 0 ≤ kv.1 ∧ kv.1 < i64max ∧ kv.2 < 2 ^ 64
  live_sched : ∀ k ser, alistGet kel.series k = some ser →
    WfSched kel.schedule_config.chunk_size ser.schedule
  live_data : ∀ k ser, alistGet kel.series k = some ser →
    ser.data.data
      = rangeFilter (fakeData f k) ser.schedule.chunk_start ser.schedule.chunk_end
  rows_wf : ∀ row ∈ kel.chunk_store,
    WfSched kel.schedule_config.chunk_size ⟨row.start, row.stop⟩ ∧
    ∃ r : RawSeries, raw_decompress row.chunk.compressed_data = some (.ok r)
  row_content : ∀ k s, 0 ≤ s → s % kel.schedule_config.chunk_size = 0 →
    s < i64max →
    (∀ ser, alistGet kel.series k = some ser → ser.schedule.chunk_start ≠ s) →
    decodedRow (lastRowAt kel.chunk_store k s)
      = rangeFilter (fakeData f k) s (satAdd s kel.schedule_config.chunk_size)

theorem rangeFilter_eq_nil_of_out (l : List (Int × Nat)) (a b : Int)
    (h : ∀ kv ∈ l, ¬(a ≤ kv.1 ∧ kv.1 < b)) : rangeFilter l a b = [] := by
  unfold rangeFilter
  induction l with
  | nil => rfl
  | cons kw rest ih =>
    rw [List.filter_cons]
    split
    · rename_i hcond
      simp only [Bool.and_eq_true, decide_eq_true_eq] at hcond
      exact absurd hcond (h kw (List.mem_cons_self _ _))
    · exact ih (fun kv hkv => h kv (List.mem_cons_of_mem _ hkv))

theorem init_start_nonneg_of (cfg : ScheduleConfig) (x : Int)
    (hc : 0 < cfg.chunk_size) (hx : 0 ≤ x) :
    0 ≤ (cfg.init_schedule_from_time x).chunk_start :=
  mul_nonneg (Int.tdiv_nonneg hx (by omega)) (by omega)

theorem init_start_le_max (cfg : ScheduleConfig) (x : Int)
    (hc : 0 < cfg.chunk_size) :
    (cfg.init_schedule_from_time x).chunk_start ≤ max x 0 := by
  by_cases hx : 0 ≤ x
  · have := tdiv_mul_le_self x cfg.chunk_size hx hc
    show Int.tdiv x cfg.chunk_size * cfg.chunk_size ≤ max x 0
    omega
  · have := tdiv_mul_nonpos_of_nonpos x cfg.chunk_size (by omega) hc
    show Int.tdiv x cfg.chunk_size * cfg.chunk_size ≤ max x 0
    omega

theorem init_neg_end_nonpos (cfg : ScheduleConfig) (x : Int)
    (hc : 0 < cfg.chunk_size) (hxm : i64min ≤ x)
    (hneg : (cfg.init_schedule_from_time x).chunk_start < 0) :
    (cfg.init_schedule_from_time x).chunk_end ≤ 0 := by
  have hx : x < 0 := by
    by_contra hx
    exact absurd (init_start_nonneg_of cfg x hc (by omega)) (by omega)
  have hxle : x ≤ (cfg.init_schedule_from_time x).chunk_start :=
    le_tdiv_mul_of_nonpos x cfg.chunk_size (by omega) hc
  have halign := schedule_start_aligned cfg x
  have hsp : (cfg.init_schedule_from_time x).chunk_start + cfg.chunk_size ≤ 0 :=
    aligned_spacing cfg.chunk_size _ 0 hc halign (by simp) hneg
  show satAdd (cfg.init_schedule_from_time x).chunk_start cfg.chunk_size ≤ 0
  unfold satAdd i64max i64min at *
  omega

theorem fakeData_insert_valid (f : KelpieFake) (k : Int) (p : DataPoint)
    (hnan : isNanBits p.value = false) (ht0 : 0 ≤ p.time) (htM : p.time < i64max) :
    fakeData (f.insert k p) k = mapInsert (fakeData f k) p.time p.value ∧
    ∀ k', k' ≠ k → fakeData (f.insert k p) k' = fakeData f k' := by
  unfold KelpieFake.insert
  rw [if_neg (by simp [hnan]), if_neg (by omega), if_neg (by omega)]
  constructor
  · unfold fakeData
    simp only [alistGet_insert_self]
    rfl
  · intro k' hk'
    unfold fakeData
    simp only [alistGet_insert_ne _ _ _ _ hk']

theorem fake_insert_invalid (f : KelpieFake) (k : Int) (p : DataPoint)
    (h : isNanBits p.value = true ∨ p.time < 0 ∨ p.time = i64max) :
    f.insert k p = f := by
  unfold KelpieFake.insert
  rcases h with h | h | h
  · rw [if_pos h]
  · by_cases h1 : isNanBits p.value
    · rw [if_pos h1]
    · rw [if_neg h1, if_pos h]
  · by_cases h1 : isNanBits p.value
    · rw [if_pos h1]
    · rw [if_neg h1]
      by_cases h2 : p.time < 0
      · rw [if_pos h2]
      · rw [if_neg h2, if_pos h]

theorem fake_query_eq (f : KelpieFake) (k start stop : Int) :
    KelpieFake.query f k start stop
      = .ok ⟨rangeFilter (fakeData f k) start stop⟩ := by
  unfold KelpieFake.query
  by_cases h : start > stop
  · rw [if_pos h, rangeFilter_eq_nil_of_out _ _ _ (fun kv _ => by omega)]
    rfl
  · rw [if_neg h]
    rcases hget : alistGet f.series k with _ | s
    · unfold fakeData
      rw [hget]
      rfl
    · unfold fakeData
      rw [hget]
      rfl

theorem store_branch_content (kel : Kelpie (List StoreRow)) (f : KelpieFake)
    (inv : EngineInv kel f) (k x : Int)
    (hxm : i64min ≤ x) (hxM : x < i64max)
    (hnl : ∀ ser, alistGet kel.series k = some ser →
      ser.schedule.chunk_start
        ≠ (kel.schedule_config.init_schedule_from_time x).chunk_start) :
    ∃ res : Option (ChunkMeta × RawSeries),
      (match sqliteStore.get_chunk kel.chunk_store k
          (kel.schedule_config.init_schedule_from_time x).chunk_start
          (kel.schedule_config.init_schedule_from_time x).chunk_end with
       | Except.error e => some (Except.error e)
       | Except.ok none => some (Except.ok none)
       | Except.ok (some (meta, chunk)) =>
         match chunk.decompress with
         | some (Except.ok s) => some (Except.ok (some (meta, s)))
         | _ => none)
      = some (Except.ok res) ∧
      (match res with | none => ([] : List (Int × Nat)) | some pr => pr.2.data)
        = rangeFilter (fakeData f k)
            (kel.schedule_config.init_schedule_from_time x).chunk_start
            (kel.schedule_config.init_schedule_from_time x).chunk_end := by
  have hc := inv.cfg_pos
  have halign := schedule_start_aligned kel.schedule_config x
  have hget_eq : sqliteStore.get_chunk kel.chunk_store k
      (kel.schedule_config.init_schedule_from_time x).chunk_start
      (kel.schedule_config.init_schedule_from_time x).chunk_end
      = Except.ok (sqlite_get_chunk kel.chunk_store k
        (kel.schedule_config.init_schedule_from_time x).chunk_start
        (kel.schedule_config.init_schedule_from_time x).chunk_end) := rfl
  rw [hget_eq]
  by_cases hneg : (kel.schedule_config.init_schedule_from_time x).chunk_start < 0
  · rw [sqlite_get_neg kel.chunk_store kel.schedule_config.chunk_size k _ _ hc
      (fun row hrow => (inv.rows_wf row hrow).1) hneg]
    refine ⟨none, rfl, ?_⟩
    symm
    apply rangeFilter_eq_nil_of_out
    intro kv hkv
    have h0 := (inv.fake_range k kv hkv).1
    have hend := init_neg_end_nonpos kel.schedule_config x hc hxm hneg
    omega
  · have hs0 : 0 ≤ (kel.schedule_config.init_schedule_from_time x).chunk_start := by
      omega
    have hsM : (kel.schedule_config.init_schedule_from_time x).chunk_start
        < i64max := by
      have h1 := init_start_le_max kel.schedule_config x hc
      have h2 : (0 : Int) < i64max := by decide
      rcases le_or_lt x 0 with h | h
      · have : max x 0 = 0 := by omega
        omega
      · have : max x 0 = x := by omega
        omega
    have hWend : (kel.schedule_config.init_schedule_from_time x).chunk_end
        = satAdd (kel.schedule_config.init_schedule_from_time x).chunk_start
            kel.schedule_config.chunk_size := rfl
    rw [hWend, sqlite_get_aligned kel.chunk_store kel.schedule_config.chunk_size k
      _ hc (fun row hrow => (inv.rows_wf row hrow).1) hs0 halign hsM]
    have hrc := inv.row_content k _ hs0 halign hsM hnl
    rcases hrow : lastRowAt kel.chunk_store k
        (kel.schedule_config.init_schedule_from_time x).chunk_start with _ | row
    · refine ⟨none, rfl, ?_⟩
      rw [hrow] at hrc
      exact hrc
    · have hmem := lastRowAt_mem _ _ _ _ hrow
      obtain ⟨r, hr⟩ := (inv.rows_wf row hmem.1).2
      have hdec : Chunk.decompress row.chunk = some (Except.ok r) := hr
      rw [hrow] at hrc
      rw [Option.map_some']
      refine ⟨some (⟨k, row.start, row.stop⟩, r), ?_, ?_⟩
      · simp only [hdec]
      · show r.data = _
        simp only [decodedRow] at hrc
        rw [hr] at hrc
        exact hrc

theorem query_exact_content (kel : Kelpie (List StoreRow)) (f : KelpieFake)
    (inv : EngineInv kel f) (k x : Int)
    (hxm : i64min ≤ x) (hxM : x < i64max) :
    ∃ res : Option (ChunkMeta × RawSeries),
      Kelpie.query_exact_chunk sqliteStore kel k
        (kel.schedule_config.init_schedule_from_time x).chunk_start
        (kel.schedule_config.init_schedule_from_time x).chunk_end
      = some (Except.ok res) ∧
      (match res with | none => ([] : List (Int × Nat)) | some pr => pr.2.data)
        = rangeFilter (fakeData f k)
            (kel.schedule_config.init_schedule_from_time x).chunk_start
            (kel.schedule_config.init_schedule_from_time x).chunk_end := by
  unfold Kelpie.query_exact_chunk
  rcases hlive : alistGet kel.series k with _ | ser
  · exact store_branch_content kel f inv k x hxm hxM
      (fun ser hser => absurd (hlive ▸ hser) (by simp))
  · simp only []
    by_cases hstart : ser.schedule.chunk_start
        = (kel.schedule_config.init_schedule_from_time x).chunk_start
    · rw [if_pos hstart]
      refine ⟨some (⟨k, _, _⟩, ser.data), rfl, ?_⟩
      have hld := inv.live_data k ser hlive
      have hsch := inv.live_sched k ser hlive
      have hend : ser.schedule.chunk_end
          = (kel.schedule_config.init_schedule_from_time x).chunk_end := by
        rw [hsch.2.2.2, hstart]
        rfl
      show ser.data.data = _
      rw [hld, hstart, hend]
    · rw [if_neg hstart]
      exact store_branch_content kel f inv k x hxm hxM
        (fun ser' hser' => by
          rw [hlive] at hser'
          cases hser'
          exact hstart)

theorem queryLoop_spec (kel : Kelpie (List StoreRow)) (f : KelpieFake)
    (inv : EngineInv kel f) (k start0 stop : Int)
    (hc : 0 < kel.schedule_config.chunk_size)
    (hcM : kel.schedule_config.chunk_size ≤ i64max)
    (hstop : stop ≤ i64max) :
    ∀ (n : Nat) (cur : Int) (hcur : i64min ≤ cur) (acc : List (Int × Nat)),
    (stop - cur).toNat = n →
    KeysSorted acc →
    (∀ kv ∈ acc, kv ∈ fakeData f k ∧ kv.1 < cur) →
    (∀ kv ∈ fakeData f k, start0 ≤ kv.1 → kv.1 < cur → kv ∈ acc) →
    ∃ final, Kelpie.queryLoop sqliteStore kel k stop hc hcM hstop cur hcur acc
        = some (Except.ok final) ∧
      KeysSorted final ∧
      (∀ kv ∈ final, kv ∈ fakeData f k) ∧
      (∀ kv ∈ fakeData f k, start0 ≤ kv.1 → kv.1 < stop → kv ∈ final) := by
  intro n
  induction n using Nat.strong_induction_on with
  | _ n ih =>
    intro cur hcur acc hn hsort hsub hcov
    by_cases hlt : cur < stop
    · have hcurM : cur < i64max := by
        have : stop ≤ i64max := hstop
        omega
      have hprog : cur
          < (kel.schedule_config.init_schedule_from_time cur).chunk_end :=
        schedule_end_progress kel.schedule_config cur hc hcM hcur hcurM
      obtain ⟨res, hres, hdata⟩ := query_exact_content kel f inv k cur hcur hcurM
      have hWs_le : (kel.schedule_config.init_schedule_from_time cur).chunk_start
          ≤ max cur 0 := init_start_le_max kel.schedule_config cur hc
      have hcov' : ∀ kv ∈ fakeData f k,
          cur ≤ kv.1 →
          kv.1 < (kel.schedule_config.init_schedule_from_time cur).chunk_start →
          False := by
        intro kv hkv h1 h2
        have h0 := (inv.fake_range k kv hkv).1
        rcases le_or_lt 0 cur with hcase | hcase
        · have : max cur 0 = cur := by omega
          omega
        · have : max cur 0 = 0 := by omega
          omega
      unfold Kelpie.queryLoop
      rw [dif_pos hlt]
      rcases res with _ | ⟨meta, chunk⟩
      · -- no content in this window
        have hnil : rangeFilter (fakeData f k)
            (kel.schedule_config.init_schedule_from_time cur).chunk_start
            (kel.schedule_config.init_schedule_from_time cur).chunk_end = [] := by
          rw [← hdata]
        rw [hres]
        have hdec : ((stop -
            (kel.schedule_config.init_schedule_from_time cur).chunk_end).toNat) < n := by
          omega
        obtain ⟨final, hfin, hfs, hfsub, hfcov⟩ := ih _ hdec
          (kel.schedule_config.init_schedule_from_time cur).chunk_end
          (i64min_le_schedule_end _ _) acc rfl hsort
          (fun kv hkv => ⟨(hsub kv hkv).1, by have := (hsub kv hkv).2; omega⟩)
          (fun kv hkv h1 h2 => by
            rcases lt_or_le kv.1 cur with h3 | h3
            · exact hcov kv hkv h1 h3
            · exfalso
              rcases lt_or_le kv.1
                  (kel.schedule_config.init_schedule_from_time cur).chunk_start
                  with h4 | h4
              · exact hcov' kv hkv h3 h4
              · have : kv ∈ rangeFilter (fakeData f k)
                    (kel.schedule_config.init_schedule_from_time cur).chunk_start
                    (kel.schedule_config.init_schedule_from_time cur).chunk_end :=
                  (mem_rangeFilter _ _ _ kv).mpr ⟨hkv, h4, h2⟩
                rw [hnil] at this
                simp at this)
        exact ⟨final, hfin, hfs, hfsub, hfcov⟩
      · -- a window with content
        have hchunk : chunk.data = rangeFilter (fakeData f k)
            (kel.schedule_config.init_schedule_from_time cur).chunk_start
            (kel.schedule_config.init_schedule_from_time cur).chunk_end := hdata
        have hchunk_sorted : KeysSorted chunk.data := by
          rw [hchunk]
          exact rangeFilter_sorted _ _ _ (inv.fake_sorted k)
        rw [hres]
        have hdec : ((stop -
            (kel.schedule_config.init_schedule_from_time cur).chunk_end).toNat) < n := by
          omega
        obtain ⟨final, hfin, hfs, hfsub, hfcov⟩ := ih _ hdec
          (kel.schedule_config.init_schedule_from_time cur).chunk_end
          (i64min_le_schedule_end _ _) (mapAppend acc chunk.data) rfl
          (mapAppend_sorted _ _ hsort)
          (fun kv hkv => by
            rcases mem_mapAppend_elim _ _ _ hkv with h' | h'
            · exact ⟨(hsub kv h').1, by have := (hsub kv h').2; omega⟩
            · rw [hchunk] at h'
              have := (mem_rangeFilter _ _ _ kv).mp h'
              exact ⟨this.1, this.2.2⟩)
          (fun kv hkv h1 h2 => by
            rcases lt_or_le kv.1 cur with h3 | h3
            · refine mem_mapAppend_left _ _ _ (hcov kv hkv h1 h3) ?_
              intro v' hv'
              rw [hchunk] at hv'
              have hmem := ((mem_rangeFilter _ _ _ (kv.1, v')).mp hv').1
              exact sorted_functional _ (inv.fake_sorted k) kv.1 v' kv.2 hmem
                (by rcases kv with ⟨k1, k2⟩; exact hkv)
            · rcases lt_or_le kv.1
                  (kel.schedule_config.init_schedule_from_time cur).chunk_start
                  with h4 | h4
              · exact absurd (hcov' kv hkv h3 h4) (by simp)
              · refine mem_mapAppend_right _ _ _ hchunk_sorted ?_
                rw [hchunk]
                exact (mem_rangeFilter _ _ _ kv).mpr ⟨hkv, h4, h2⟩)
        exact ⟨final, hfin, hfs, hfsub, hfcov⟩
    · unfold Kelpie.queryLoop
      rw [dif_neg hlt]
      refine ⟨acc, rfl, hsort, fun kv hkv => (hsub kv hkv).1, ?_⟩
      intro kv hkv h1 h2
      exact hcov kv hkv h1 (by omega)

theorem query_parity (kel : Kelpie (List StoreRow)) (f : KelpieFake)
    (inv : EngineInv kel f) (k start stop : Int)
    (hc : 0 < kel.schedule_config.chunk_size)
    (hcM : kel.schedule_config.chunk_size ≤ i64max)
    (hstart : i64min ≤ start) (hstop : stop ≤ i64max) :
    Kelpie.query sqliteStore kel k start stop hc hcM hstart hstop
      = some (KelpieFake.query f k start stop) := by
  obtain ⟨final, hfin, hfs, hfsub, hfcov⟩ := queryLoop_spec kel f inv k start stop
    hc hcM hstop ((stop - start).toNat) start hstart [] rfl trivial
    (by simp) (by simp)
  unfold Kelpie.query
  rw [hfin]
  rw [fake_query_eq]
  have heq : rangeFilter final start stop
      = rangeFilter (fakeData f k) start stop := by
    apply sorted_eq_of_mem_iff
    · exact rangeFilter_sorted _ _ _ hfs
    · exact rangeFilter_sorted _ _ _ (inv.fake_sorted k)
    · intro kv
      rw [mem_rangeFilter, mem_rangeFilter]
      constructor
      · rintro ⟨h1, h2, h3⟩
        exact ⟨hfsub kv h1, h2, h3⟩
      · rintro ⟨h1, h2, h3⟩
        exact ⟨hfcov kv h1 h2 h3, h2, h3⟩
  show some (Except.ok (⟨rangeFilter final start stop⟩ : RawSeries)) = _
  rw [heq]

theorem window_disjoint (c s0 s' t : Int) (hc : 0 < c)
    (h0a : s0 % c = 0) (h0n : 0 ≤ s0) (h1a : s' % c = 0) (h1n : 0 ≤ s')
    (hne : s' ≠ s0) (ht : s0 ≤ t ∧ t < satAdd s0 c) :
    ¬(s' ≤ t ∧ t < satAdd s' c) := by
  rintro ⟨h1, h2⟩
  rcases lt_or_gt_of_ne hne with h | h
  · have := aligned_spacing c s' s0 hc h1a h0a h
    unfold satAdd i64max i64min at *
    omega
  · have := aligned_spacing c s0 s' hc h0a h1a h
    unfold satAdd i64max i64min at *
    omega

theorem live_roundtrip (kel : Kelpie (List StoreRow)) (f : KelpieFake)
    (inv : EngineInv kel f) (k : Int) (ser : Series)
    (hlive : alistGet kel.series k = some ser) :
    raw_decompress (raw_compress ser.data) = some (Except.ok ser.data) := by
  have hsch := inv.live_sched k ser hlive
  have hdata := inv.live_data k ser hlive
  have hsorted : KeysSorted ser.data.data := by
    rw [hdata]
    exact rangeFilter_sorted _ _ _ (inv.fake_sorted k)
  have hbounds : ∀ kv ∈ ser.data.data,
      ser.schedule.chunk_start ≤ kv.1 ∧ kv.1 < ser.schedule.chunk_end ∧
      kv ∈ fakeData f k := by
    intro kv hkv
    rw [hdata] at hkv
    have := (mem_rangeFilter _ _ _ kv).mp hkv
    exact ⟨this.2.1, this.2.2, this.1⟩
  apply raw_roundtrip ser.data hsorted
  · intro kv hkv
    have h1 := (hbounds kv hkv).2.2
    have h2 := inv.fake_range k kv h1
    unfold i64min i64max at *
    omega
  · intro kv hkv
    exact (inv.fake_range k kv (hbounds kv hkv).2.2).2.2
  · have hlen : ser.data.data.length
        ≤ (ser.schedule.chunk_end - ser.schedule.chunk_start).toNat := by
      apply sorted_range_length _ _ _ hsorted
      intro kv hkv
      exact ⟨(hbounds kv hkv).1, (hbounds kv hkv).2.1⟩
    have hcb : ser.schedule.chunk_end - ser.schedule.chunk_start
        ≤ kel.schedule_config.chunk_size := by
      have he := hsch.2.2.2
      have h0 := hsch.1
      have hcc := inv.cfg_pos
      rw [he]
      unfold satAdd i64max i64min at *
      omega
    have hsmall := inv.cfg_small
    have hlen2 : ser.data.data.length ≤ 2 ^ 40 := by omega
    omega

theorem save_series_spec (kel : Kelpie (List StoreRow)) (f : KelpieFake)
    (inv : EngineInv kel f) (k : Int) :
    ∃ kel1, Kelpie.save_series sqliteStore kel k = some kel1 ∧
      EngineInv kel1 f ∧
      alistGet kel1.series k = none ∧
      (∀ k', k' ≠ k → alistGet kel1.series k' = alistGet kel.series k') ∧
      kel1.schedule_config = kel.schedule_config := by
  unfold Kelpie.save_series
  rcases hlive : alistGet kel.series k with _ | ser
  · exact ⟨kel, rfl, inv, hlive, fun _ _ => rfl, rfl⟩
  · have hsch := inv.live_sched k ser hlive
    have hdata := inv.live_data k ser hlive
    have hrt := live_roundtrip kel f inv k ser hlive
    refine ⟨⟨sqlite_set_chunk kel.chunk_store k ser.schedule.chunk_start
        ser.schedule.chunk_end (Chunk.compress_series ser.data),
        alistRemove kel.series k, kel.schedule_config⟩, rfl, ?_, ?_, ?_, rfl⟩
    · constructor
      case cfg_pos => exact inv.cfg_pos
      case cfg_small => exact inv.cfg_small
      case nodup => exact alistRemove_nodup _ _ inv.nodup
      case fake_sorted => exact inv.fake_sorted
      case fake_range => exact inv.fake_range
      case live_sched =>
        intro k' ser' hget
        by_cases hk : k' = k
        · rw [hk, alistGet_remove_self _ _ inv.nodup] at hget
          exact absurd hget (by simp)
        · rw [alistGet_remove_ne _ _ _ hk] at hget
          exact inv.live_sched k' ser' hget
      case live_data =>
        intro k' ser' hget
        by_cases hk : k' = k
        · rw [hk, alistGet_remove_self _ _ inv.nodup] at hget
          exact absurd hget (by simp)
        · rw [alistGet_remove_ne _ _ _ hk] at hget
          exact inv.live_data k' ser' hget
      case rows_wf =>
        intro row hrow
        unfold sqlite_set_chunk at hrow
        rcases List.mem_append.mp hrow with h' | h'
        · exact inv.rows_wf row h'
        · have : row = ⟨k, ser.schedule.chunk_start, ser.schedule.chunk_end,
              Chunk.compress_series ser.data⟩ := by simpa using h'
          subst this
          refine ⟨hsch, ser.data, hrt⟩
      case row_content =>
        intro k'' s hs0 hsa hsM hnolive
        show decodedRow (lastRowAt (sqlite_set_chunk kel.chunk_store k
            ser.schedule.chunk_start ser.schedule.chunk_end
            (Chunk.compress_series ser.data)) k'' s) = _
        unfold sqlite_set_chunk
        rw [lastRowAt_append]
        by_cases hk : k'' = k
        · subst hk
          by_cases hss : ser.schedule.chunk_start = s
          · rw [if_pos ⟨rfl, hss⟩]
            simp only [decodedRow, Chunk.compress_series, hrt]
            rw [hdata, hss]
            have he : ser.schedule.chunk_end
                = satAdd s kel.schedule_config.chunk_size := by
              rw [hsch.2.2.2, hss]
            rw [he]
          · rw [if_neg (by rintro ⟨_, h⟩; exact hss h)]
            exact inv.row_content k'' s hs0 hsa hsM
              (fun ser' hser' => by
                rw [hlive] at hser'
                cases hser'
                exact fun hcon => hss hcon)
        · rw [if_neg (by rintro ⟨h, _⟩; exact hk h.symm)]
          exact inv.row_content k'' s hs0 hsa hsM
            (fun ser' hser' => hnolive ser'
              (by rw [alistGet_remove_ne _ _ _ hk]; exact hser'))
    · exact alistGet_remove_self _ _ inv.nodup
    · intro k' hk'
      exact alistGet_remove_ne _ _ _ hk'

theorem insert_live_inv (kel1 : Kelpie (List StoreRow)) (f : KelpieFake)
    (inv1 : EngineInv kel1 f) (k : Int) (W : Schedule) (d : RawSeries)
    (hW : WfSched kel1.schedule_config.chunk_size W)
    (hk1none : alistGet kel1.series k = none)
    (hd : d.data = rangeFilter (fakeData f k) W.chunk_start W.chunk_end) :
    EngineInv ⟨kel1.chunk_store, alistInsert kel1.series k ⟨W, d⟩,
      kel1.schedule_config⟩ f := by
  constructor
  case cfg_pos => exact inv1.cfg_pos
  case cfg_small => exact inv1.cfg_small
  case nodup => exact alistInsert_nodup _ _ _ inv1.nodup
  case fake_sorted => exact inv1.fake_sorted
  case fake_range => exact inv1.fake_range
  case live_sched =>
    intro k' ser' hget
    by_cases hk : k' = k
    · rw [hk, alistGet_insert_self] at hget
      cases hget
      exact hW
    · rw [alistGet_insert_ne _ _ _ _ hk] at hget
      exact inv1.live_sched k' ser' hget
  case live_data =>
    intro k' ser' hget
    by_cases hk : k' = k
    · subst hk
      rw [alistGet_insert_self] at hget
      cases hget
      exact hd
    · rw [alistGet_insert_ne _ _ _ _ hk] at hget
      exact inv1.live_data k' ser' hget
  case rows_wf => exact inv1.rows_wf
  case row_content =>
    intro k'' s hs0 hsa hsM hnolive
    by_cases hk : k'' = k
    · subst hk
      exact inv1.row_content k'' s hs0 hsa hsM
        (fun ser' hser' => by rw [hk1none] at hser'; exact absurd hser' (by simp))
    · exact inv1.row_content k'' s hs0 hsa hsM
        (fun ser' hser' => hnolive ser'
          (by rw [alistGet_insert_ne _ _ _ _ hk]; exact hser'))

theorem load_series_spec (kel : Kelpie (List StoreRow)) (f : KelpieFake)
    (inv : EngineInv kel f) (k : Int) (W : Schedule)
    (hW : WfSched kel.schedule_config.chunk_size W) :
    ∃ kel2, Kelpie.load_series sqliteStore kel k W = some kel2 ∧
      EngineInv kel2 f ∧
      alistGet kel2.series k
        = some ⟨W, ⟨rangeFilter (fakeData f k) W.chunk_start W.chunk_end⟩⟩ ∧
      (∀ k', k' ≠ k → alistGet kel2.series k' = alistGet kel.series k') ∧
      kel2.schedule_config = kel.schedule_config := by
  obtain ⟨kel1, hsave, inv1, hk1none, hother1, hcfg1⟩ := save_series_spec kel f inv k
  have hc1 : 0 < kel1.schedule_config.chunk_size := inv1.cfg_pos
  have hWc : WfSched kel1.schedule_config.chunk_size W := by
    rw [hcfg1]
    exact hW
  have hWend : W.chunk_end
      = satAdd W.chunk_start kel1.schedule_config.chunk_size := hWc.2.2.2
  have hgets : sqlite_get_chunk kel1.chunk_store k W.chunk_start W.chunk_end
      = (lastRowAt kel1.chunk_store k W.chunk_start).map
          (fun r => (⟨k, r.start, r.stop⟩, r.chunk)) := by
    rw [hWend]
    exact sqlite_get_aligned _ _ _ _ hc1 (fun row hrow => (inv1.rows_wf row hrow).1)
      hWc.1 hWc.2.1 hWc.2.2.1
  have hrc := inv1.row_content k W.chunk_start hWc.1 hWc.2.1 hWc.2.2.1
    (fun ser hser => by rw [hk1none] at hser; exact absurd hser (by simp))
  rw [← hWend] at hrc
  unfold Kelpie.load_series
  rw [hsave]
  simp only []
  have hget_eq : sqliteStore.get_chunk kel1.chunk_store k W.chunk_start W.chunk_end
      = Except.ok (sqlite_get_chunk kel1.chunk_store k W.chunk_start W.chunk_end) :=
    rfl
  rw [hget_eq, hgets]
  rcases hrow : lastRowAt kel1.chunk_store k W.chunk_start with _ | row
  · rw [hrow] at hrc
    refine ⟨⟨kel1.chunk_store, alistInsert kel1.series k (Series.new W),
      kel1.schedule_config⟩, rfl, ?_, ?_, ?_, hcfg1⟩
    · exact insert_live_inv kel1 f inv1 k W ⟨[]⟩ hWc hk1none hrc
    · show alistGet (alistInsert kel1.series k (Series.new W)) k = _
      rw [alistGet_insert_self]
      simp only [decodedRow] at hrc
      rw [← hrc]
      rfl
    · intro k' hk'
      show alistGet (alistInsert kel1.series k (Series.new W)) k' = _
      rw [alistGet_insert_ne _ _ _ _ hk']
      exact hother1 k' hk'
  · rw [hrow] at hrc
    rw [Option.map_some']
    obtain ⟨r, hr⟩ := (inv1.rows_wf row (lastRowAt_mem _ _ _ _ hrow).1).2
    have hdec : Chunk.decompress row.chunk = some (Except.ok r) := hr
    simp only []
    rw [hdec]
    simp only [decodedRow] at hrc
    rw [hr] at hrc
    have hrdata : r.data = rangeFilter (fakeData f k) W.chunk_start W.chunk_end :=
      hrc
    refine ⟨⟨kel1.chunk_store, alistInsert kel1.series k ⟨W, r⟩,
      kel1.schedule_config⟩, rfl, ?_, ?_, ?_, hcfg1⟩
    · exact insert_live_inv kel1 f inv1 k W r hWc hk1none hrdata
    · show alistGet (alistInsert kel1.series k ⟨W, r⟩) k = _
      rw [alistGet_insert_self, ← hrdata]
    · intro k' hk'
      show alistGet (alistInsert kel1.series k ⟨W, r⟩) k' = _
      rw [alistGet_insert_ne _ _ _ _ hk']
      exact hother1 k' hk'

theorem ensure_series_spec (kel : Kelpie (List StoreRow)) (f : KelpieFake)
    (inv : EngineInv kel f) (k time : Int) (ht0 : 0 ≤ time) (htM : time < i64max) :
    ∃ kel2, Kelpie.ensure_series_for sqliteStore kel k time = some kel2 ∧
      EngineInv kel2 f ∧
      (∃ ser, alistGet kel2.series k = some ser ∧
        ser.schedule.contains time = true) ∧
      kel2.schedule_config = kel.schedule_config := by
  have hc : 0 < kel.schedule_config.chunk_size := inv.cfg_pos
  have hload : ∀ _ : Unit,
      ∃ kel2, Kelpie.load_series sqliteStore kel k
          (kel.schedule_config.init_schedule_from_time time) = some kel2 ∧
        EngineInv kel2 f ∧
        (∃ ser, alistGet kel2.series k = some ser ∧
          ser.schedule.contains time = true) ∧
        kel2.schedule_config = kel.schedule_config := by
    intro _
    obtain ⟨kel2, hld, inv2, hget2, _, hcfg2⟩ :=
      load_series_spec kel f inv k (kel.schedule_config.init_schedule_from_time time)
        (init_schedule_wf kel.schedule_config time hc ht0 htM)
    exact ⟨kel2, hld, inv2,
      ⟨_, hget2, schedule_contains_self kel.schedule_config time hc ht0 htM⟩, hcfg2⟩
  unfold Kelpie.ensure_series_for
  rcases hgk : alistGet kel.series k with _ | series
  · exact hload ()
  · simp only []
    by_cases hcont : series.schedule.contains time
    · rw [if_pos hcont]
      exact ⟨kel, rfl, inv, ⟨series, hgk, hcont⟩, rfl⟩
    · rw [if_neg hcont]
      exact hload ()

theorem insert_parity (kel : Kelpie (List StoreRow)) (f : KelpieFake)
    (inv : EngineInv kel f) (k : Int) (p : DataPoint)
    (hv : p.value < 2 ^ 64) (htmin : i64min ≤ p.time) (htMax : p.time ≤ i64max) :
    ∃ kel3, Kelpie.insert sqliteStore kel k p = some kel3 ∧
      EngineInv kel3 (f.insert k p) ∧
      kel3.schedule_config = kel.schedule_config := by
  by_cases hbad : isNanBits p.value = true ∨ p.time < 0 ∨ p.time = i64max
  · refine ⟨kel, ?_, ?_, rfl⟩
    · unfold Kelpie.insert
      rcases hbad with h | h | h
      · rw [if_pos h]
      · by_cases h1 : isNanBits p.value
        · rw [if_pos h1]
        · rw [if_neg h1, if_pos h]
      · by_cases h1 : isNanBits p.value
        · rw [if_pos h1]
        · rw [if_neg h1]
          by_cases h2 : p.time < 0
          · rw [if_pos h2]
          · rw [if_neg h2, if_pos h]
    · rw [fake_insert_invalid f k p hbad]
      exact inv
  · push_neg at hbad
    obtain ⟨hnan, ht0n, htMn⟩ := hbad
    have hnan' : isNanBits p.value = false := by
      revert hnan
      cases isNanBits p.value <;> simp
    have ht0 : 0 ≤ p.time := by omega
    have htM : p.time < i64max := by
      rcases lt_or_eq_of_le htMax with h | h
      · exact h
      · exact absurd h htMn
    obtain ⟨kel2, hens, inv2, ⟨ser, hser, hcont⟩, hcfg2⟩ :=
      ensure_series_spec kel f inv k p.time ht0 htM
    have hc : 0 < kel2.schedule_config.chunk_size := inv2.cfg_pos
    have hW := inv2.live_sched k ser hser
    have hcontP : ser.schedule.chunk_start ≤ p.time
        ∧ p.time < ser.schedule.chunk_end := by
      unfold Schedule.contains at hcont
      simp only [Bool.and_eq_true, decide_eq_true_eq] at hcont
      exact hcont
    have hti : ser.try_insert p = (true, ⟨ser.schedule, ser.data.insert p⟩) := by
      unfold Series.try_insert
      rw [if_pos hcont]
    have hfk := fakeData_insert_valid f k p hnan' ht0 htM
    refine ⟨⟨kel2.chunk_store,
        alistInsert kel2.series k ⟨ser.schedule, ser.data.insert p⟩,
        kel2.schedule_config⟩, ?_, ?_, hcfg2⟩
    · unfold Kelpie.insert
      rw [if_neg (by simp [hnan']), if_neg (by omega), if_neg htMn, hens]
      simp only []
      rw [hser]
      simp only []
      rw [hti]
      rfl
    · refine EngineInv.mk hc inv2.cfg_small
        (alistInsert_nodup _ _ _ inv2.nodup) ?_ ?_ ?_ ?_ ?_ ?_
      ·
        intro k'
        by_cases hk : k' = k
        · subst hk
          rw [hfk.1]
          exact mapInsert_sorted _ _ _ (inv2.fake_sorted k')
        · rw [hfk.2 k' hk]
          exact inv2.fake_sorted k'
      ·
        intro k' kv hkv
        by_cases hk : k' = k
        · subst hk
          rw [hfk.1] at hkv
          rcases (mem_mapInsert_iff _ _ _ _ (inv2.fake_sorted k')).mp hkv with
            h | ⟨hm, _⟩
          · rw [h]
            exact ⟨ht0, htM, hv⟩
          · exact inv2.fake_range k' kv hm
        · rw [hfk.2 k' hk] at hkv
          exact inv2.fake_range k' kv hkv
      ·
        intro k' ser' hget
        by_cases hk : k' = k
        · subst hk
          rw [alistGet_insert_self] at hget
          cases hget
          exact hW
        · rw [alistGet_insert_ne _ _ _ _ hk] at hget
          exact inv2.live_sched k' ser' hget
      ·
        intro k' ser' hget
        by_cases hk : k' = k
        · subst hk
          rw [alistGet_insert_self] at hget
          cases hget
          show mapInsert ser.data.data p.time p.value = _
          rw [hfk.1,
            rangeFilter_mapInsert_inside _ _ _ _ _ (inv2.fake_sorted k') hcontP,
            ← inv2.live_data k' ser hser]
        · rw [alistGet_insert_ne _ _ _ _ hk] at hget
          rw [hfk.2 k' hk]
          exact inv2.live_data k' ser' hget
      · exact inv2.rows_wf
      ·
        intro k'' s hs0 hsa hsM hnolive
        by_cases hk : k'' = k
        · subst hk
          have hne : ser.schedule.chunk_start ≠ s :=
            hnolive ⟨ser.schedule, ser.data.insert p⟩ (alistGet_insert_self _ _ _)
          have h2 := inv2.row_content k'' s hs0 hsa hsM
            (fun ser0 hser0 => by
              rw [hser] at hser0
              cases hser0
              exact hne)
          have hout : ¬(s ≤ p.time ∧ p.time < satAdd s kel2.schedule_config.chunk_size) :=
            window_disjoint kel2.schedule_config.chunk_size
              ser.schedule.chunk_start s p.time hc hW.2.1 hW.1 hsa hs0
              (fun he => hne he.symm)
              ⟨hcontP.1, by rw [← hW.2.2.2]; exact hcontP.2⟩
          rw [hfk.1,
            rangeFilter_mapInsert_outside _ _ _ _ _ (inv2.fake_sorted k'') hout]
          exact h2
        · rw [hfk.2 k'' hk]
          exact inv2.row_content k'' s hs0 hsa hsM
            (fun ser0 hser0 => hnolive ser0
              (by rw [alistGet_insert_ne _ _ _ _ hk]; exact hser0))

/-- A driver command: the external operations of the engine. -/
inductive Cmd where
  | insert (series_key : Int) (p : DataPoint)
  | query (series_key start stop : Int)
deriving Repr, DecidableEq

/-- i64-representability of a command's arguments (what Rust's types enforce
for free). -/
def CmdWf : Cmd → Prop
  | .insert _ p => p.value < 2 ^ 64 ∧ i64min ≤ p.time ∧ p.time ≤ i64max
  | .query _ start stop => i64min ≤ start ∧ stop ≤ i64max

def cmdWfB : Cmd → Bool
  | .insert _ p => decide (p.value < 2 ^ 64) && decide (i64min ≤ p.time)
      && decide (p.time ≤ i64max)
  | .query _ start stop => decide (i64min ≤ start) && decide (stop ≤ i64max)

theorem cmdWfB_iff (c : Cmd) : cmdWfB c = true ↔ CmdWf c := by
  cases c with
  | insert k p =>
    unfold cmdWfB CmdWf
    simp only [Bool.and_eq_true, decide_eq_true_eq]
    tauto
  | query k a b =>
    unfold cmdWfB CmdWf
    simp only [Bool.and_eq_true, decide_eq_true_eq]

instance : DecidablePred CmdWf :=
  fun c => decidable_of_iff (cmdWfB c = true) (cmdWfB_iff c)

/-- Run a command list against the reference implementation, collecting the
query results. -/
def runFake (f : KelpieFake) :
    List Cmd → KelpieFake × List (Except GetChunkError RawSeries)
  | [] => (f, [])
  | .insert k p :: rest => runFake (f.insert k p) rest
  | .query k a b :: rest =>
    let r := runFake f rest
    (r.1, f.query k a b :: r.2)

/-- Run a command list against the engine (with the sqlite-modelled store),
collecting the query results; `none` models a panic.  A query's arguments are
guarded by the i64 bounds that Rust's types enforce for free. -/
def runEngine (kel : Kelpie (List StoreRow)) :
    List Cmd → Option (Kelpie (List StoreRow) × List (Except GetChunkError RawSeries))
  | [] => some (kel, [])
  | .insert k p :: rest =>
    match Kelpie.insert sqliteStore kel k p with
    | none => none
    | some kel2 => runEngine kel2 rest
  | .query k a b :: rest =>
    if h : 0 < kel.schedule_config.chunk_size
        ∧ kel.schedule_config.chunk_size ≤ i64max
        ∧ i64min ≤ a ∧ b ≤ i64max then
      match Kelpie.query sqliteStore kel k a b h.1 h.2.1 h.2.2.1 h.2.2.2 with
      | none => none
      | some r =>
        match runEngine kel rest with
        | none => none
        | some kf => some (kf.1, r :: kf.2)
    else none

theorem initial_inv : EngineInv Kelpie.new_memory KelpieFake.new := by
  refine EngineInv.mk (by decide) (by decide) (List.Pairwise.nil) ?_ ?_ ?_ ?_ ?_ ?_
  · intro k
    show KeysSorted []
    simp [KeysSorted]
  · intro k kv hkv
    exact absurd hkv (by simp [fakeData, alistGet, RawSeries.new])
  · intro k ser hget
    exact absurd hget (by simp [alistGet])
  · intro k ser hget
    exact absurd hget (by simp [alistGet])
  · intro row hrow
    exact absurd hrow (by simp [Kelpie.new_memory])
  · intro k s _ _ _ _
    rfl

theorem runs_match (cmds : List Cmd) :
    ∀ (kel : Kelpie (List StoreRow)) (f : KelpieFake), EngineInv kel f →
    (∀ c ∈ cmds, CmdWf c) →
    ∃ kel', runEngine kel cmds = some (kel', (runFake f cmds).2) ∧
      EngineInv kel' (runFake f cmds).1 := by
  induction cmds with
  | nil =>
    intro kel f inv _
    exact ⟨kel, rfl, inv⟩
  | cons c rest ih =>
    intro kel f inv hw
    have hwc := hw c (List.mem_cons_self _ _)
    have hwr : ∀ c' ∈ rest, CmdWf c' :=
      fun c' hc' => hw c' (List.mem_cons_of_mem _ hc')
    cases c with
    | insert k p =>
      obtain ⟨hv, htmin, htMax⟩ := hwc
      obtain ⟨kel3, hins, inv3, _⟩ := insert_parity kel f inv k p hv htmin htMax
      obtain ⟨kel', hrun, inv'⟩ := ih kel3 (f.insert k p) inv3 hwr
      refine ⟨kel', ?_, inv'⟩
      show (match Kelpie.insert sqliteStore kel k p with
        | none => none
        | some kel2 => runEngine kel2 rest) = _
      rw [hins]
      exact hrun
    | query k a b =>
      obtain ⟨ha, hb⟩ := hwc
      have hcM : kel.schedule_config.chunk_size ≤ i64max := by
        have h1 := inv.cfg_small
        have h2 : (2 : Int) ^ 40 ≤ i64max := by decide
        omega
      have hcnd : 0 < kel.schedule_config.chunk_size
          ∧ kel.schedule_config.chunk_size ≤ i64max
          ∧ i64min ≤ a ∧ b ≤ i64max := ⟨inv.cfg_pos, hcM, ha, hb⟩
      obtain ⟨kel', hrun, inv'⟩ := ih kel f inv hwr
      refine ⟨kel', ?_, inv'⟩
      show (if h : 0 < kel.schedule_config.chunk_size
          ∧ kel.schedule_config.chunk_size ≤ i64max
          ∧ i64min ≤ a ∧ b ≤ i64max then
        match Kelpie.query sqliteStore kel k a b h.1 h.2.1 h.2.2.1 h.2.2.2 with
        | none => none
        | some r =>
          match runEngine kel rest with
          | none => none
          | some kf => some (kf.1, r :: kf.2)
        else none) = _
      rw [dif_pos hcnd]
      rw [query_parity kel f inv k a b hcnd.1 hcnd.2.1 hcnd.2.2.1 hcnd.2.2.2]
      simp only []
      rw [hrun]
      rfl

/-- C1: for every sequence of insert and query commands (with i64-representable
arguments), the engine and the reference implementation `KelpieFake` — a
per-series ordered map applying the same input filtering — return the same
ordered (time, value) list for every query; and each reference query answer is
exactly the accepted inserted points of that series restricted to
`start ≤ time < stop`, in time order. -/
theorem claim_C1_engine_matches_reference (cmds : List Cmd)
    (hw : ∀ c ∈ cmds, CmdWf c) :
    (∃ kel', runEngine Kelpie.new_memory cmds
        = some (kel', (runFake KelpieFake.new cmds).2)) ∧
    (∀ (g : KelpieFake) (k a b : Int),
      KelpieFake.query g k a b = .ok ⟨rangeFilter (fakeData g k) a b⟩) := by
  obtain ⟨kel', hrun, _⟩ :=
    runs_match cmds Kelpie.new_memory KelpieFake.new initial_inv hw
  exact ⟨⟨kel', hrun⟩, fun g k a b => fake_query_eq g k a b⟩

theorem claim_C1_engine_matches_reference_witness :
    (∀ c ∈ [Cmd.insert 0 ⟨5, 1⟩, Cmd.query 0 0 10], CmdWf c) ∧
    ((∃ kel', runEngine Kelpie.new_memory [Cmd.insert 0 ⟨5, 1⟩, Cmd.query 0 0 10]
        = some (kel',
          (runFake KelpieFake.new [Cmd.insert 0 ⟨5, 1⟩, Cmd.query 0 0 10]).2)) ∧
     (∀ (g : KelpieFake) (k a b : Int),
       KelpieFake.query g k a b = .ok ⟨rangeFilter (fakeData g k) a b⟩)) :=
  ⟨by decide, claim_C1_engine_matches_reference
    [Cmd.insert 0 ⟨5, 1⟩, Cmd.query 0 0 10] (by decide)⟩

/-- C6: in every engine state reachable by a sequence of insert and query
commands (from the fresh in-memory engine, without panicking), every live
`Series` satisfies the buffer invariant: each point in its data lies inside
the series' schedule window (`chunk_start ≤ time < chunk_end`). -/
theorem claim_C6_live_points_in_schedule (cmds : List Cmd)
    (hw : ∀ c ∈ cmds, CmdWf c) (kel' : Kelpie (List StoreRow))
    (outs : List (Except GetChunkError RawSeries))
    (hrun : runEngine Kelpie.new_memory cmds = some (kel', outs))
    (k : Int) (ser : Series) (hser : alistGet kel'.series k = some ser) :
    ∀ kv ∈ ser.data.data, ser.schedule.contains kv.1 = true := by
  obtain ⟨kel'', hrun', inv'⟩ :=
    runs_match cmds Kelpie.new_memory KelpieFake.new initial_inv hw
  rw [hrun] at hrun'
  have hke : kel' = kel'' := congrArg Prod.fst (Option.some.inj hrun')
  subst hke
  intro kv hkv
  have hld := inv'.live_data k ser hser
  rw [hld] at hkv
  have hm := (mem_rangeFilter _ _ _ _).mp hkv
  unfold Schedule.contains
  simp only [Bool.and_eq_true, decide_eq_true_eq]
  exact ⟨hm.2.1, hm.2.2⟩

theorem claim_C6_live_points_in_schedule_witness :
    (∀ c ∈ [Cmd.insert 0 ⟨5, 1⟩], CmdWf c) ∧
    runEngine Kelpie.new_memory [Cmd.insert 0 ⟨5, 1⟩]
      = some (⟨[], [(0, ⟨⟨0, 3600000⟩, ⟨[(5, 1)]⟩⟩)], ⟨3600000⟩⟩, []) ∧
    (∀ kv ∈ ([(5, 1)] : List (Int × Nat)),
      Schedule.contains ⟨0, 3600000⟩ kv.1 = true) :=
  ⟨by decide, rfl,
   claim_C6_live_points_in_schedule [Cmd.insert 0 ⟨5, 1⟩] (by decide)
     ⟨[], [(0, ⟨⟨0, 3600000⟩, ⟨[(5, 1)]⟩⟩)], ⟨3600000⟩⟩ [] rfl
     0 ⟨⟨0, 3600000⟩, ⟨[(5, 1)]⟩⟩ rfl⟩
